import Mathlib

/-!
# RetroArch audio drivers: OpenAL output stream and CoreAudio capture ring

Shallow embedding of `audio/drivers/openal.c` and
`audio/drivers_microphone/coreaudio_microphone.c`, with the properties of the
buffering logic stated over it.

Conventions of the embedding.

* Bytes, buffer names (`ALuint`) and `size_t` quantities are natural numbers;
  an `Int` is an integer (`ALint`).
  `size_t` subtraction that can go below zero and the 32-bit `unsigned`
  products of `al_init` wrap explicitly.  Sums and products of `size_t`
  quantities are taken on `Nat`: they stay far below `2^64` while `res_ptr`
  indexes the `res_buf` array.
* The OpenAL source object is an explicit value `ALsource` threaded through
  the driver functions.  The values the backend gives back to
  `alGetSourcei (AL_BUFFERS_PROCESSED)` are an input of each call (`polls`):
  a finite list of answers followed by `0` for ever.
* A call of the OpenAL driver that does not return is `none`.  A call of the
  capture driver is `none` while it loops, `blocked` when it waits in
  `slock_lock` on a held region, `returned` when it returns.
-/

namespace OpenAL

/-- OpenAL object name (`ALuint`). -/
abbrev ALuint := Nat

/-- `#define OPENAL_BUFSIZE 1024`. -/
def OPENAL_BUFSIZE : Nat := 1024

/-- Number of values of a `size_t` (64-bit). -/
def SIZE_T_MOD : Nat := 18446744073709551616

/-- Number of values of an `unsigned` (32-bit). -/
def UINT_MOD : Nat := 4294967296

/-- `size_t` subtraction `a - b` (wraps below zero), for `a b < 2^64`. -/
def size_sub (a b : Nat) : Nat := (a + SIZE_T_MOD - b) % SIZE_T_MOD

/-- Conversion of an unsigned value to a 32-bit `int` (`ALsizei`), two's
complement. -/
def to_ALsizei (n : Nat) : Int :=
  if n % UINT_MOD < 2147483648 then ((n % UINT_MOD : Nat) : Int)
  else ((n % UINT_MOD : Nat) : Int) - 4294967296

/-- `AL_FORMAT_STEREO16`. -/
def AL_FORMAT_STEREO16 : Int := 0x1103

/-- The driver record `al_t` (device and context pointers are not modelled). -/
structure al_t where
  source : ALuint
  buffers : List ALuint
  res_buf : List ALuint
  res_ptr : Nat
  num_buffers : Int
  tmpbuf_ptr : Nat
  rate : Int
  format : Int
  nonblock : Bool
  is_paused : Bool
deriving DecidableEq, Repr

/-- The OpenAL source as the driver sees it.  `queue` holds the buffer names
queued on the source, oldest first.  `submitted` records, oldest first, the
1024 bytes `alBufferData` read for each chunk that was then queued; `none`
stands for a read that left the caller's input.  `misreported` is raised when
the backend reports more processed buffers than are queued, `requeued` when a
buffer is queued while it is still in the queue. -/
structure ALsource where
  queue : List ALuint
  submitted : List (Option (List Nat))
  playing : Bool
  misreported : Bool
  requeued : Bool
deriving DecidableEq, Repr

/-- Driver record together with the backend source it drives. -/
structure St where
  al : al_t
  src : ALsource
deriving DecidableEq, Repr

/-- What the platform gives `al_init`: whether each allocation succeeds,
whether `AL_EXT_FLOAT32` is present with the enum value of
`AL_FORMAT_STEREO_FLOAT32`, and the names `alGenSources` / `alGenBuffers`
hand out. -/
structure ALenv where
  calloc_ok : Bool
  device_ok : Bool
  ctx_ok : Bool
  float_ext : Bool
  float_format : Int
  arrays_ok : Bool
  source : ALuint
  names : List ALuint
deriving DecidableEq, Repr

/-- The value `_latency` of `al_init`: `latency * rate * 2` is an `unsigned`
product, widened to `size_t` by the multiplication with `sizeof`. -/
def al_latency_bytes (float_ext : Bool) (rate latency : Nat) : Nat :=
  ((latency * rate * 2) % UINT_MOD) * (if float_ext then 4 else 2)

/-- The buffer count of `al_init`:
`_latency / (1000 * OPENAL_BUFSIZE) - 1` in `size_t`, stored in an `ALsizei`,
raised to `2` when smaller. -/
def al_num_buffers (float_ext : Bool) (rate latency : Nat) : Int :=
  let n := to_ALsizei (size_sub (al_latency_bytes float_ext rate latency / (1000 * OPENAL_BUFSIZE)) 1)
  if n < 2 then 2 else n

/-- `al_init`: `none` is the `NULL` return of the error paths. -/
def al_init (env : ALenv) (rate latency : Nat) : Option St :=
  if !env.calloc_ok then none
  else if !env.device_ok then none
  else if !env.ctx_ok then none
  else
    let format := if env.float_ext then env.float_format else AL_FORMAT_STEREO16
    let num_buffers := al_num_buffers env.float_ext rate latency
    if !env.arrays_ok then none
    else
      let buffers := (List.range num_buffers.toNat).map (fun i => env.names.getD i 0)
      some {
        al := {
          source := env.source
          buffers := buffers
          res_buf := buffers
          res_ptr := num_buffers.toNat
          num_buffers := num_buffers
          tmpbuf_ptr := 0
          rate := to_ALsizei rate
          format := format
          nonblock := false
          is_paused := false }
        src := {
          queue := []
          submitted := []
          playing := false
          misreported := false
          requeued := false } }

/-- Store `xs` into the array `arr` from index `i` on; a store outside the
array is dropped. -/
def write_at (arr : List ALuint) : Nat → List ALuint → List ALuint
  | _, [] => arr
  | i, x :: xs => write_at (arr.set i x) (i + 1) xs

/-- `al_unqueue_buffers`, with `val` the answer of
`alGetSourcei (AL_BUFFERS_PROCESSED)`.  `alSourceUnqueueBuffers` takes the
`val` oldest buffers off the queue and stores them at `res_buf[res_ptr..]`. -/
def al_unqueue_buffers (st : St) (val : Int) : Bool × St :=
  if val ≤ 0 then (false, st)
  else
    let n := val.toNat
    (true,
      { al := { st.al with
                res_buf := write_at st.al.res_buf st.al.res_ptr (st.src.queue.take n)
                res_ptr := st.al.res_ptr + n }
        src := { st.src with
                 queue := st.src.queue.drop n
                 misreported := st.src.misreported || decide (st.src.queue.length < n) } })

/-- The last statement of `al_get_buffer`: `*buffer = al->res_buf[--al->res_ptr]`.
It is reached with `res_ptr > 0` only (the loop before it ends on
`res_ptr != 0` or right after `res_ptr += val` with `val > 0`), so the
decrement does not wrap.  A read outside the array gives `0`. -/
def al_pop_buffer (st : St) : ALuint × St :=
  let p := st.al.res_ptr - 1
  (st.al.res_buf.getD p 0, { st with al := { st.al with res_ptr := p } })

/-- The waiting loop of `al_get_buffer`, entered with `res_ptr == 0`: one
iteration per answer of the backend.  In blocking mode the loop goes on
(sleeping one millisecond) until an answer is positive; when every remaining
answer is `0` it never ends. -/
def al_wait_buffer (st : St) : List Int → Option (Bool × St × List Int)
  | [] =>
    if st.al.nonblock then some (false, st, []) else none
  | val :: polls =>
    let r := al_unqueue_buffers st val
    if r.1 then some (true, r.2, polls)
    else if st.al.nonblock then some (false, r.2, polls)
    else al_wait_buffer r.2 polls

/-- `al_get_buffer` (build without `EMSCRIPTEN`): the buffer taken from the
free stack, or `none` inside when the call returns `false`. -/
def al_get_buffer (st : St) (polls : List Int) : Option (Option ALuint × St × List Int) :=
  if st.al.res_ptr = 0 then
    match al_wait_buffer st polls with
    | none => none
    | some (false, st1, polls1) => some (none, st1, polls1)
    | some (true, st1, polls1) =>
      let r := al_pop_buffer st1
      some (some r.1, r.2, polls1)
  else
    let r := al_pop_buffer st
    some (some r.1, r.2, polls)

/-- The 1024 bytes `alBufferData` reads at offset `pos` of the caller's input
`s`; `none` when the read leaves the input. -/
def read_chunk (s : List Nat) (pos : Nat) : Option (List Nat) :=
  if pos + OPENAL_BUFSIZE ≤ s.length then some ((s.drop pos).take OPENAL_BUFSIZE) else none

/-- `alBufferData (buffer, ..., buf, OPENAL_BUFSIZE, ...)`,
`alSourceQueueBuffers (source, 1, &buffer)` and the start of playback when the
source is not playing. -/
def al_submit (src : ALsource) (buffer : ALuint) (data : Option (List Nat)) : ALsource :=
  { src with
    queue := src.queue ++ [buffer]
    submitted := src.submitted ++ [data]
    playing := true
    requeued := src.requeued || decide (buffer ∈ src.queue) }

/-- The `while (len)` loop of `al_write`.  `pos` is the offset of `buf` in
the input `s`, `len` the bytes left, `acc` the running `_len`.  The three
updates under `if (rc > 0)` are made without the test: with `rc = 0` they add
or subtract zero.  `alBufferData` reads at `buf` before `buf += rc`.  The
first argument bounds the number of iterations; `al_write` gives it a value
that no run exhausts. -/
def al_write_loop : Nat → St → List Int → List Nat → Nat → Nat → Nat →
    Option (Nat × St × List Int)
  | 0, _, _, _, _, _, _ => none
  | fuel + 1, st, polls, s, pos, len, acc =>
    if len = 0 then some (acc, st, polls)
    else
      let avail := size_sub OPENAL_BUFSIZE st.al.tmpbuf_ptr
      let rc := min avail len
      let st1 : St := { st with al := { st.al with tmpbuf_ptr := (st.al.tmpbuf_ptr + rc) % SIZE_T_MOD } }
      if st1.al.tmpbuf_ptr ≠ OPENAL_BUFSIZE then some (acc + rc, st1, polls)
      else
        match al_get_buffer st1 polls with
        | none => none
        | some (none, st2, polls2) => some (acc + rc, st2, polls2)
        | some (some buffer, st2, polls2) =>
          let st3 : St :=
            { al := { st2.al with tmpbuf_ptr := 0 }
              src := al_submit st2.src buffer (read_chunk s pos) }
          al_write_loop fuel st3 polls2 s (pos + rc) (len - rc) (acc + rc)

/-- `al_write` on the input bytes `s` (`len = s.length`): the number of bytes
reported as accepted (`_len`, returned as `ssize_t`, which keeps every count
below `2^63`), the new state and the unused backend answers. -/
def al_write (st : St) (polls : List Int) (s : List Nat) : Option (Nat × St × List Int) :=
  al_write_loop (s.length + 2) st polls s 0 s.length 0

/-- `al_stop`. -/
def al_stop (data : Option al_t) : Bool × Option al_t :=
  match data with
  | some al => (true, some { al with is_paused := true })
  | none => (true, none)

/-- `al_alive`. -/
def al_alive (data : Option al_t) : Bool :=
  match data with
  | some al => !al.is_paused
  | none => false

/-- `al_set_nonblock_state`. -/
def al_set_nonblock_state (data : Option al_t) (state : Bool) : Option al_t :=
  match data with
  | some al => some { al with nonblock := state }
  | none => none

/-- `al_start`. -/
def al_start (data : Option al_t) (_is_shutdown : Bool) : Bool × Option al_t :=
  match data with
  | some al => (true, some { al with is_paused := false })
  | none => (true, none)

/-- `al_write_avail`, with `val` the backend's answer to the poll it makes. -/
def al_write_avail (st : St) (val : Int) : Nat × St :=
  let st1 := (al_unqueue_buffers st val).2
  (st1.al.res_ptr * OPENAL_BUFSIZE + size_sub OPENAL_BUFSIZE st1.al.tmpbuf_ptr, st1)

/-- `al_buffer_size`: the `int` product converted to `size_t`. -/
def al_buffer_size (al : al_t) : Nat :=
  (((al.num_buffers + 1) * (OPENAL_BUFSIZE : Int)) % (SIZE_T_MOD : Int)).toNat

/-- `al_use_float`. -/
def al_use_float (al : al_t) : Bool :=
  if al.format = AL_FORMAT_STEREO16 then false else true

/-- Bytes the stream can still take before it needs a buffer the backend has
not given back: the value `al_write_avail` computes when `tmpbuf_ptr` is at
most `OPENAL_BUFSIZE`. -/
def room (st : St) : Nat :=
  st.al.res_ptr * OPENAL_BUFSIZE + (OPENAL_BUFSIZE - st.al.tmpbuf_ptr)

/-- A run of `al_write` calls, each with the backend answers it gets and its
input; the values returned, in order, and the final state. -/
def al_write_seq : St → List (List Int × List Nat) → Option (List Nat × St)
  | st, [] => some ([], st)
  | st, c :: calls =>
    match al_write st c.1 c.2 with
    | none => none
    | some (r, st1, _) =>
      match al_write_seq st1 calls with
      | none => none
      | some (rs, st2) => some (r :: rs, st2)

/-- A stream as a successful `al_init` returns it. -/
def Opened (st : St) : Prop :=
  ∃ (env : ALenv) (rate latency : Nat), al_init env rate latency = some st

/-- States of an output stream reachable from `al_init` through the driver
entry points, whatever the backend answers. -/
inductive Reachable : St → Prop
  | init (st : St) : Opened st → Reachable st
  | write (st : St) (polls : List Int) (s : List Nat) (r : Nat) (st2 : St)
      (polls2 : List Int) :
      Reachable st → al_write st polls s = some (r, st2, polls2) → Reachable st2
  | write_avail (st : St) (val : Int) (st2 : St) :
      Reachable st → (al_write_avail st val).2 = st2 → Reachable st2
  | stop (st : St) (al2 : al_t) (st2 : St) :
      Reachable st → (al_stop (some st.al)).2 = some al2 → st2 = ⟨al2, st.src⟩ → Reachable st2
  | start (st : St) (b : Bool) (al2 : al_t) (st2 : St) :
      Reachable st → (al_start (some st.al) b).2 = some al2 → st2 = ⟨al2, st.src⟩ →
      Reachable st2
  | set_nonblock (st : St) (b : Bool) (al2 : al_t) (st2 : St) :
      Reachable st → al_set_nonblock_state (some st.al) b = some al2 → st2 = ⟨al2, st.src⟩ →
      Reachable st2

/-- Ownership of the buffer names: the free stack `res_buf[0..res_ptr)`, the
buffers `held` by the driver between `al_get_buffer` and
`alSourceQueueBuffers`, and the backend queue together are the names
allocated at open, each once. -/
structure Owned (st : St) (held : List ALuint) : Prop where
  res_len : st.al.res_buf.length = st.al.buffers.length
  count : st.al.res_ptr + held.length + st.src.queue.length = st.al.buffers.length
  perm : List.Perm (st.al.res_buf.take st.al.res_ptr ++ (held ++ st.src.queue)) st.al.buffers
  fresh : st.src.requeued = false
  num : (st.al.buffers.length : Int) = st.al.num_buffers

/-- A platform on which every allocation of `al_init` succeeds, without the
float extension, handing out the buffer names `1, 2, ...`. -/
def demo_env : ALenv :=
  { calloc_ok := true, device_ok := true, ctx_ok := true, float_ext := false,
    float_format := 0x10011, arrays_ok := true, source := 1, names := [1, 2, 3, 4] }

/-- A platform like `demo_env` that hands out the buffer names `1` to `11`. -/
def scenario_env : ALenv :=
  { demo_env with names := [1, 2, 3, 4, 5, 6, 7, 8, 9, 10, 11] }

/-- The stream `al_init scenario_env 48000 64` opens: rate 48000, latency 64 ms,
16-bit samples, eleven buffers. -/
def scenario_stream : St :=
  { al := { source := 1, buffers := [1, 2, 3, 4, 5, 6, 7, 8, 9, 10, 11],
            res_buf := [1, 2, 3, 4, 5, 6, 7, 8, 9, 10, 11], res_ptr := 11,
            num_buffers := 11, tmpbuf_ptr := 0, rate := 48000,
            format := AL_FORMAT_STEREO16, nonblock := false, is_paused := false }
    src := { queue := [], submitted := [], playing := false, misreported := false,
             requeued := false } }

/-- The stream `al_init demo_env 48000 0` opens (two buffers), switched to
nonblocking mode. -/
def demo_stream : St :=
  { al := { source := 1, buffers := [1, 2], res_buf := [1, 2], res_ptr := 2,
            num_buffers := 2, tmpbuf_ptr := 0, rate := 48000,
            format := AL_FORMAT_STEREO16, nonblock := true, is_paused := false }
    src := { queue := [], submitted := [], playing := false, misreported := false,
             requeued := false } }

/-- The state `al_write demo_stream [] (2048 bytes 0)` leaves: both buffers
queued, accumulator empty. -/
def demo_stream_queued : St :=
  { al := { demo_stream.al with res_ptr := 0 }
    src := { queue := [2, 1]
             submitted := [some (List.replicate 1024 0), some (List.replicate 1024 0)]
             playing := true, misreported := false, requeued := false } }

/-- The state `al_write demo_stream [] (3072 bytes 0)` leaves: both buffers
queued and the accumulator index at `OPENAL_BUFSIZE`. -/
def demo_stream_full : St :=
  { demo_stream_queued with al := { demo_stream_queued.al with tmpbuf_ptr := 1024 } }

end OpenAL

namespace CoreAudio

/-- Modelled from the spec: the capture ring `fifo_buffer_t` of
`queues/fifo_queue.h`, which is not among the sources: "a fixed-capacity
circular byte buffer" with a read cursor `first` and a write cursor `end_`.
The storage has `size` bytes, one more than the capacity, so that a full ring
and an empty one differ. -/
structure fifo_buffer_t where
  buffer : List Nat
  size : Nat
  first : Nat
  end_ : Nat
deriving DecidableEq, Repr

/-- Modelled from the spec: `fifo_new`, a zeroed ring able to hold `size`
bytes. -/
def fifo_new (size : Nat) : fifo_buffer_t :=
  { buffer := List.replicate (size + 1) 0, size := size + 1, first := 0, end_ := 0 }

/-- Modelled from the spec: `FIFO_READ_AVAIL`, the `ringAvailable` of the
spec: the distance from the read cursor to the write cursor around the ring. -/
def FIFO_READ_AVAIL (f : fifo_buffer_t) : Nat :=
  (f.end_ + (if f.end_ < f.first then f.size else 0)) - f.first

/-- Modelled from the spec: `FIFO_WRITE_AVAIL`, the `ringFreeSpace` of the
spec: the capacity less the bytes available. -/
def FIFO_WRITE_AVAIL (f : fifo_buffer_t) : Nat :=
  (f.size - 1) - FIFO_READ_AVAIL f

/-- Modelled from the spec: one byte stored at the write cursor, which then
advances around the ring. -/
def fifo_put (f : fifo_buffer_t) (b : Nat) : fifo_buffer_t :=
  { f with buffer := f.buffer.set f.end_ b, end_ := (f.end_ + 1) % f.size }

/-- Modelled from the spec: the read cursor advanced by one byte around the
ring. -/
def fifo_skip (f : fifo_buffer_t) : fifo_buffer_t :=
  { f with first := (f.first + 1) % f.size }

/-- Modelled from the spec: `fifo_write`, "copies N bytes into the ring,
advances the write cursor", byte by byte around the ring. -/
def fifo_write (f : fifo_buffer_t) : List Nat → fifo_buffer_t
  | [] => f
  | b :: bs => fifo_write (fifo_put f b) bs

/-- Modelled from the spec: `fifo_read` of `len` bytes: the bytes at the read
cursor, in order around the ring, and the ring with the read cursor advanced. -/
def fifo_read (f : fifo_buffer_t) : Nat → List Nat × fifo_buffer_t
  | 0 => ([], f)
  | len + 1 =>
    let r := fifo_read (fifo_skip f) len
    (f.buffer.getD f.first 0 :: r.1, r.2)

/-- The unread bytes of the ring, oldest first. -/
def fifo_contents (f : fifo_buffer_t) : List Nat :=
  (List.range (FIFO_READ_AVAIL f)).map (fun i => f.buffer.getD ((f.first + i) % f.size) 0)

/-- Representation invariant of a ring: the storage has `size` bytes and both
cursors are inside it. -/
structure fifo_wf (f : fifo_buffer_t) : Prop where
  len : f.buffer.length = f.size
  first_lt : f.first < f.size
  end_lt : f.end_ < f.size

/-- Modelled from the spec: the exclusion region `slock_t` of
`rthreads/rthreads.h`, which is not among the sources: "a mutex-equivalent
exclusion region", as an explicit held / not-held state with a record of the
requests made to it.  `reacquired` is raised by an acquisition requested while
the region is held. -/
structure slock_t where
  held : Bool
  acquires : Nat
  releases : Nat
  reacquired : Bool
deriving DecidableEq, Repr

/-- Modelled from the spec: what a call of `slock_lock` comes to.  `granted`:
the region was free and the caller holds it now.  `blocked`: the region was
held, and the caller waits in `slock_lock` for a release.  No holder in this
driver gives the region back other than by returning from the call that took
it, and calls are taken one at a time here, so a blocked caller waits for
ever. -/
inductive lock_outcome where
  | granted (l : slock_t)
  | blocked (l : slock_t)
deriving DecidableEq, Repr

/-- Modelled from the spec: `slock_lock`, acquisition of the mutex-equivalent
exclusion region. -/
def slock_lock (l : slock_t) : lock_outcome :=
  if l.held then
    lock_outcome.blocked { l with acquires := l.acquires + 1, reacquired := true }
  else lock_outcome.granted { l with held := true, acquires := l.acquires + 1 }

/-- How a call of the driver ends.  `returned a`: it returns and leaves `a`.
`blocked a`: it is inside `slock_lock` on a held region and does not return;
`a` is what it had reached when it got there. -/
inductive outcome (α : Type) where
  | returned (a : α)
  | blocked (a : α)
deriving DecidableEq, Repr

/-- What a call has reached, whether it returned or not. -/
def outcome.val {α : Type} : outcome α → α
  | outcome.returned a => a
  | outcome.blocked a => a

/-- Modelled from the spec: `slock_unlock`, release of the exclusion region. -/
def slock_unlock (l : slock_t) : slock_t :=
  { l with held := false, releases := l.releases + 1 }

/-- The driver record `ca_mic_drv_t`. -/
structure ca_mic_drv_t where
  nonblock : Bool
deriving DecidableEq, Repr

/-- The microphone record `ca_mic_t`.  Of the audio queue only the number of
scratch buffers handed back to it (`enqueued`) and whether it was started are
kept; `signals` counts the `scond_signal` calls on `cond`. -/
structure ca_mic_t where
  enqueued : Nat
  started : Bool
  buffer : fifo_buffer_t
  lock : slock_t
  signals : Nat
  running : Bool
deriving DecidableEq, Repr

/-- The conversion `(int)read` of a `size_t` count (32-bit two's complement). -/
def to_int (n : Nat) : Int :=
  if n % 4294967296 < 2147483648 then ((n % 4294967296 : Nat) : Int)
  else ((n % 4294967296 : Nat) : Int) - 4294967296

/-- The blocking loop `while (read < sz)` of `coreaudio_microphone_read`;
`out` is what has been copied to `buf` so far.  The wait on `cond` is
commented out in the source, so an iteration that finds the ring empty
changes nothing.  The first argument bounds the number of iterations. -/
def read_loop : Nat → fifo_buffer_t → Nat → Nat → List Nat → Option (fifo_buffer_t × Nat × List Nat)
  | 0, _, _, _, _ => none
  | fuel + 1, f, read, sz, out =>
    if read < sz then
      let avail := FIFO_READ_AVAIL f
      if avail ≠ 0 then
        let read_amt := min (sz - read) avail
        let r := fifo_read f read_amt
        read_loop fuel r.2 (read + read_amt) sz (out ++ r.1)
      else read_loop fuel f read sz out
    else some (f, read, out)

/-- What a call of `coreaudio_microphone_read` leaves: the value `(int)read`,
the bytes copied to `buf` and the microphone record. -/
structure read_result where
  ret : Int
  out : List Nat
  mic : ca_mic_t
deriving DecidableEq, Repr

/-- `coreaudio_microphone_read`.  `fuel` bounds the iterations of the blocking
loop; `none` is a call still in that loop after them.  The function ends with
`scond_signal (mic->cond); slock_lock (mic->lock); return (int)read;`. -/
def coreaudio_microphone_read (fuel : Nat) (cadrv : ca_mic_drv_t) (mic : ca_mic_t) (sz : Nat) :
    Option (outcome read_result) :=
  match slock_lock mic.lock with
  | lock_outcome.blocked l =>
    some (outcome.blocked { ret := 0, out := [], mic := { mic with lock := l } })
  | lock_outcome.granted lock1 =>
    let body : Option (fifo_buffer_t × Nat × List Nat) :=
      if cadrv.nonblock then
        let avail := FIFO_READ_AVAIL mic.buffer
        let read_amt := if avail > sz then sz else avail
        if read_amt > 0 then
          let r := fifo_read mic.buffer read_amt
          some (r.2, read_amt, r.1)
        else some (mic.buffer, read_amt, [])
      else read_loop fuel mic.buffer 0 sz []
    match body with
    | none => none
    | some (f, read, out) =>
      match slock_lock lock1 with
      | lock_outcome.blocked l =>
        some (outcome.blocked
          { ret := to_int read, out := out
            mic := { mic with buffer := f, signals := mic.signals + 1, lock := l } })
      | lock_outcome.granted l =>
        some (outcome.returned
          { ret := to_int read, out := out
            mic := { mic with buffer := f, signals := mic.signals + 1, lock := l } })

/-- `coreaudio_microphone_set_nonblock_state`. -/
def coreaudio_microphone_set_nonblock_state (cadrv : Option ca_mic_drv_t) (nonblock : Bool) :
    Option ca_mic_drv_t :=
  match cadrv with
  | some _ => some { nonblock := nonblock }
  | none => none

/-- The loop `while (read < inBuffer->mAudioDataByteSize)` of
`AudioInputCallback`, on the bytes `data` of the scratch buffer.  An iteration
that finds too little free space changes nothing.  The first argument bounds
the number of iterations. -/
def callback_loop : Nat → fifo_buffer_t → Nat → List Nat → Option fifo_buffer_t
  | 0, _, _, _ => none
  | fuel + 1, f, read, data =>
    if read < data.length then
      if FIFO_WRITE_AVAIL f ≥ data.length then
        callback_loop fuel (fifo_write f data) (read + data.length) data
      else callback_loop fuel f read data
    else some f

/-- `AudioInputCallback` for a scratch buffer holding `data`
(`mAudioDataByteSize = data.length`).  `fuel` bounds the iterations of the
loop; `none` is a call still in that loop after them. -/
def AudioInputCallback (fuel : Nat) (mic : ca_mic_t) (inNumPackets : Nat) (data : List Nat) :
    Option (outcome ca_mic_t) :=
  if inNumPackets > 0 then
    match slock_lock mic.lock with
    | lock_outcome.blocked l => some (outcome.blocked { mic with lock := l })
    | lock_outcome.granted l =>
      match callback_loop fuel mic.buffer 0 data with
      | none => none
      | some f =>
        some (outcome.returned
          { mic with
            buffer := f
            signals := mic.signals + 1
            lock := slock_unlock l
            enqueued := mic.enqueued + 1 })
  else some (outcome.returned { mic with enqueued := mic.enqueued + 1 })

/-- `coreaudio_microphone_mic_alive`. -/
def coreaudio_microphone_mic_alive (mic : Option ca_mic_t) : Bool :=
  match mic with
  | some m => m.running
  | none => false

/-- `coreaudio_microphone_start_mic`, with `status` the value of
`AudioQueueStart`. -/
def coreaudio_microphone_start_mic (mic : ca_mic_t) (status : Int) : Bool × ca_mic_t :=
  if !mic.running then
    let m : ca_mic_t :=
      { mic with enqueued := mic.enqueued + 3, started := true, running := decide (status = 0) }
    (m.running, m)
  else (mic.running, mic)

/-- `coreaudio_microphone_stop_mic`. -/
def coreaudio_microphone_stop_mic (mic : ca_mic_t) : Bool × ca_mic_t :=
  (true, { mic with started := false, running := false })

/-- A microphone record as `coreaudio_microphone_open_mic` leaves it, with a
ring of capacity `cap`: nothing enqueued, region free, not running. -/
def fresh_mic (cap : Nat) : ca_mic_t :=
  { enqueued := 0, started := false, buffer := fifo_new cap,
    lock := { held := false, acquires := 0, releases := 0, reacquired := false },
    signals := 0, running := false }

/-- A run of hardware callbacks, each given as its `inNumPackets` and the
bytes of its scratch buffer: the record the last one leaves when every one of
them returns, `none` when one does not. -/
def run_callbacks (fuel : Nat) : ca_mic_t → List (Nat × List Nat) → Option ca_mic_t
  | mic, [] => some mic
  | mic, c :: cbs =>
    match AudioInputCallback fuel mic c.1 c.2 with
    | some (outcome.returned mic1) => run_callbacks fuel mic1 cbs
    | _ => none

/-- A stopped microphone whose ring of capacity 4 has wrapped around and holds
the bytes `3, 7, 8, 9`. -/
def demo_mic : ca_mic_t :=
  { enqueued := 5, started := false,
    buffer := { buffer := [9, 2, 3, 7, 8], size := 5, first := 2, end_ := 1 },
    lock := { held := false, acquires := 2, releases := 2, reacquired := false },
    signals := 2, running := false }

end CoreAudio

/-! ## OpenAL output stream: properties -/

namespace OpenAL

theorem size_sub_le {a b : Nat} (h : b ≤ a) (ha : a < SIZE_T_MOD) : size_sub a b = a - b := by
  unfold size_sub SIZE_T_MOD at *
  omega

theorem al_unqueue_buffers_quiet (st : St) {v : Int} (h : v ≤ 0) :
    al_unqueue_buffers st v = (false, st) := by
  simp [al_unqueue_buffers, h]

theorem al_wait_buffer_quiet (st : St) (polls : List Int)
    (hnb : st.al.nonblock = true) (hq : ∀ p ∈ polls, p ≤ 0) :
    al_wait_buffer st polls = some (false, st, polls.tail) := by
  cases polls with
  | nil => simp [al_wait_buffer, hnb]
  | cons v ps =>
    have hv : v ≤ 0 := hq v (List.mem_cons_self _ _)
    simp [al_wait_buffer, al_unqueue_buffers_quiet st hv, hnb]

theorem al_get_buffer_free (st : St) (polls : List Int) (h : st.al.res_ptr ≠ 0) :
    al_get_buffer st polls
      = some (some (st.al.res_buf.getD (st.al.res_ptr - 1) 0),
              { st with al := { st.al with res_ptr := st.al.res_ptr - 1 } }, polls) := by
  simp [al_get_buffer, h, al_pop_buffer]

theorem al_get_buffer_quiet (st : St) (polls : List Int) (h : st.al.res_ptr = 0)
    (hnb : st.al.nonblock = true) (hq : ∀ p ∈ polls, p ≤ 0) :
    al_get_buffer st polls = some (none, st, polls.tail) := by
  simp [al_get_buffer, h, al_wait_buffer_quiet st polls hnb hq]

theorem al_write_loop_quiet (fuel : Nat) : ∀ (st : St) (polls : List Int) (s : List Nat)
    (pos len acc : Nat),
    st.al.nonblock = true → st.al.tmpbuf_ptr ≤ OPENAL_BUFSIZE → (∀ p ∈ polls, p ≤ 0) →
    len + 1 + (if st.al.tmpbuf_ptr = OPENAL_BUFSIZE then 1 else 0) ≤ fuel →
    ∃ st2 polls2, al_write_loop fuel st polls s pos len acc
        = some (acc + min len (room st), st2, polls2) ∧
      st2.al.nonblock = true ∧ st2.al.tmpbuf_ptr ≤ OPENAL_BUFSIZE ∧ (∀ p ∈ polls2, p ≤ 0) ∧
      room st2 + min len (room st) = room st ∧ st2.al.num_buffers = st.al.num_buffers := by
  induction fuel with
  | zero => intro st polls s pos len acc _ _ _ hf; omega
  | succ fuel ih =>
    intro st polls s pos len acc hnb ht hq hf
    by_cases hlen : len = 0
    · subst hlen
      exact ⟨st, polls, by simp [al_write_loop], hnb, ht, hq, by simp, rfl⟩
    · have havail : size_sub OPENAL_BUFSIZE st.al.tmpbuf_ptr = OPENAL_BUFSIZE - st.al.tmpbuf_ptr :=
        size_sub_le ht (by unfold OPENAL_BUFSIZE SIZE_T_MOD; omega)
      have hrc1 : min (OPENAL_BUFSIZE - st.al.tmpbuf_ptr) len ≤ OPENAL_BUFSIZE - st.al.tmpbuf_ptr :=
        Nat.min_le_left _ _
      have hrc2 : min (OPENAL_BUFSIZE - st.al.tmpbuf_ptr) len ≤ len := Nat.min_le_right _ _
      have hrc3 : min (OPENAL_BUFSIZE - st.al.tmpbuf_ptr) len = OPENAL_BUFSIZE - st.al.tmpbuf_ptr ∨
          min (OPENAL_BUFSIZE - st.al.tmpbuf_ptr) len = len := by
        rcases Nat.le_total (OPENAL_BUFSIZE - st.al.tmpbuf_ptr) len with h | h
        · exact Or.inl (Nat.min_eq_left h)
        · exact Or.inr (Nat.min_eq_right h)
      rw [al_write_loop]
      simp only [hlen, if_false, havail]
      generalize min (OPENAL_BUFSIZE - st.al.tmpbuf_ptr) len = rc at hrc1 hrc2 hrc3 ⊢
      have hmod : (st.al.tmpbuf_ptr + rc) % SIZE_T_MOD = st.al.tmpbuf_ptr + rc := by
        apply Nat.mod_eq_of_lt
        unfold OPENAL_BUFSIZE SIZE_T_MOD at *; omega
      simp only [hmod]
      by_cases hfull : st.al.tmpbuf_ptr + rc = OPENAL_BUFSIZE
      · simp only [hfull, ne_eq, not_true_eq_false, if_false]
        have hmin : min len (room st) = rc + min (len - rc) (st.al.res_ptr * OPENAL_BUFSIZE) := by
          simp only [room, Nat.min_def]
          unfold OPENAL_BUFSIZE at *
          split_ifs <;> omega
        by_cases hr : st.al.res_ptr = 0
        · rw [al_get_buffer_quiet _ _ (by simpa using hr) (by simpa using hnb) hq]
          refine ⟨{ st with al := { st.al with tmpbuf_ptr := OPENAL_BUFSIZE } }, polls.tail, ?_,
            by simpa using hnb, by simp, ?_, ?_, rfl⟩
          · simp only [hmin, hr]
            simp
          · intro p hp; exact hq p (List.mem_of_mem_tail hp)
          · simp only [hmin, hr]
            simp only [room, hr]
            unfold OPENAL_BUFSIZE at *; simp; omega
        · rw [al_get_buffer_free _ _ (by simpa using hr)]
          simp only
          obtain ⟨st2, polls2, h1, h2, h3, h4, h5, h6⟩ := ih
            { al := { st.al with tmpbuf_ptr := 0, res_ptr := st.al.res_ptr - 1 }
              src := al_submit st.src (st.al.res_buf.getD (st.al.res_ptr - 1) 0) (read_chunk s pos) }
            polls s (pos + rc) (len - rc) (acc + rc)
            (by simpa using hnb) (by simp) hq
            (by
              simp only [OPENAL_BUFSIZE] at *
              split_ifs at hf <;> simp <;> omega)
          have hroom : room ⟨{ st.al with tmpbuf_ptr := 0, res_ptr := st.al.res_ptr - 1 },
              al_submit st.src (st.al.res_buf.getD (st.al.res_ptr - 1) 0) (read_chunk s pos)⟩
              = st.al.res_ptr * OPENAL_BUFSIZE := by
            simp only [room]
            unfold OPENAL_BUFSIZE; omega
          rw [hroom] at h1 h5
          refine ⟨st2, polls2, ?_, h2, h3, h4, ?_, ?_⟩
          · rw [h1, hmin, Nat.add_assoc]
          · rw [hmin]
            simp only [room] at *
            unfold OPENAL_BUFSIZE at *
            omega
          · simpa using h6
      · simp only [hfull, ne_eq, not_false_eq_true, if_true]
        have hmin : min len (room st) = rc := by
          simp only [room, Nat.min_def]
          unfold OPENAL_BUFSIZE at *
          split_ifs <;> omega
        refine ⟨{ st with al := { st.al with tmpbuf_ptr := st.al.tmpbuf_ptr + rc } }, polls, ?_,
          by simpa using hnb, ?_, hq, ?_, rfl⟩
        · rw [hmin]
        · simp only [OPENAL_BUFSIZE] at *; omega
        · rw [hmin]
          simp only [room]
          unfold OPENAL_BUFSIZE at *; omega

/-- A nonblocking `al_write` during which the backend completes nothing
returns, and it takes `min len (room st)` bytes. -/
theorem al_write_quiet (st : St) (polls : List Int) (s : List Nat)
    (hnb : st.al.nonblock = true) (ht : st.al.tmpbuf_ptr ≤ OPENAL_BUFSIZE)
    (hq : ∀ p ∈ polls, p ≤ 0) :
    ∃ st2 polls2, al_write st polls s = some (min s.length (room st), st2, polls2) ∧
      st2.al.nonblock = true ∧ st2.al.tmpbuf_ptr ≤ OPENAL_BUFSIZE ∧ (∀ p ∈ polls2, p ≤ 0) ∧
      room st2 + min s.length (room st) = room st ∧ st2.al.num_buffers = st.al.num_buffers := by
  have h := al_write_loop_quiet (s.length + 2) st polls s 0 s.length 0 hnb ht hq
    (by split_ifs <;> omega)
  simpa [al_write] using h

/-- The value `al_write_avail` reports is `room` of the state it leaves, when
the accumulator index is in range. -/
theorem al_write_avail_eq_room (st : St) (val : Int)
    (ht : (al_write_avail st val).2.al.tmpbuf_ptr ≤ OPENAL_BUFSIZE) :
    (al_write_avail st val).1 = room (al_write_avail st val).2 := by
  simp only [al_write_avail, room] at *
  rw [size_sub_le ht (by unfold OPENAL_BUFSIZE SIZE_T_MOD; omega)]

theorem al_unqueue_buffers_frame (st : St) (val : Int) :
    (al_unqueue_buffers st val).2.al.tmpbuf_ptr = st.al.tmpbuf_ptr ∧
    (al_unqueue_buffers st val).2.al.nonblock = st.al.nonblock ∧
    ((al_unqueue_buffers st val).1 = false → (al_unqueue_buffers st val).2 = st) := by
  unfold al_unqueue_buffers
  split <;> simp

theorem al_wait_buffer_frame (polls : List Int) : ∀ (st : St) (b : Bool) (st2 : St)
    (polls2 : List Int), al_wait_buffer st polls = some (b, st2, polls2) →
    st2.al.tmpbuf_ptr = st.al.tmpbuf_ptr ∧ st2.al.nonblock = st.al.nonblock ∧
    (b = false → st2.al.nonblock = true ∧ st2.al.res_ptr = st.al.res_ptr) := by
  induction polls with
  | nil =>
    intro st b st2 polls2 h
    simp only [al_wait_buffer] at h
    split at h
    · rename_i hnb
      simp only [Option.some.injEq, Prod.mk.injEq] at h
      obtain ⟨rfl, rfl, rfl⟩ := h
      simp [hnb]
    · simp at h
  | cons val polls ih =>
    intro st b st2 polls2 h
    obtain ⟨f1, f2, f3⟩ := al_unqueue_buffers_frame st val
    simp only [al_wait_buffer] at h
    split at h
    · simp only [Option.some.injEq, Prod.mk.injEq] at h
      obtain ⟨rfl, rfl, rfl⟩ := h
      exact ⟨f1, f2, by simp⟩
    · rename_i hfalse
      have hst := f3 (by simpa using hfalse)
      split at h
      · rename_i hnb
        simp only [Option.some.injEq, Prod.mk.injEq] at h
        obtain ⟨rfl, rfl, rfl⟩ := h
        rw [hst]
        simp [hnb]
      · have := ih _ _ _ _ h
        rw [hst] at this
        exact this

theorem al_get_buffer_frame (st : St) (polls : List Int) (ob : Option ALuint) (st2 : St)
    (polls2 : List Int) (h : al_get_buffer st polls = some (ob, st2, polls2)) :
    st2.al.tmpbuf_ptr = st.al.tmpbuf_ptr ∧ st2.al.nonblock = st.al.nonblock ∧
    (ob = none → st2.al.nonblock = true ∧ st2.al.res_ptr = 0) := by
  unfold al_get_buffer at h
  split at h
  · rename_i hz
    split at h
    · simp at h
    · rename_i st1 polls1 hw
      simp only [Option.some.injEq, Prod.mk.injEq] at h
      obtain ⟨rfl, rfl, rfl⟩ := h
      obtain ⟨w1, w2, w3⟩ := al_wait_buffer_frame _ _ _ _ _ hw
      exact ⟨w1, w2, fun _ => ⟨(w3 rfl).1, by rw [(w3 rfl).2, hz]⟩⟩
    · rename_i st1 polls1 hw
      simp only [Option.some.injEq, Prod.mk.injEq] at h
      obtain ⟨rfl, rfl, rfl⟩ := h
      obtain ⟨w1, w2, -⟩ := al_wait_buffer_frame _ _ _ _ _ hw
      simp [al_pop_buffer, w1, w2]
  · simp only [Option.some.injEq, Prod.mk.injEq] at h
    obtain ⟨rfl, rfl, rfl⟩ := h
    simp [al_pop_buffer]

theorem al_write_loop_tmpbuf (fuel : Nat) : ∀ (st : St) (polls : List Int) (s : List Nat)
    (pos len acc r : Nat) (st2 : St) (polls2 : List Int),
    st.al.tmpbuf_ptr ≤ OPENAL_BUFSIZE →
    al_write_loop fuel st polls s pos len acc = some (r, st2, polls2) →
    st2.al.tmpbuf_ptr ≤ OPENAL_BUFSIZE ∧ st2.al.nonblock = st.al.nonblock ∧
    (st2.al.tmpbuf_ptr = OPENAL_BUFSIZE →
      (st2.al.nonblock = true ∧ st2.al.res_ptr = 0) ∨
      (len = 0 ∧ st.al.tmpbuf_ptr = OPENAL_BUFSIZE)) := by
  induction fuel with
  | zero => intro st polls s pos len acc r st2 polls2 _ h; simp [al_write_loop] at h
  | succ fuel ih =>
    intro st polls s pos len acc r st2 polls2 ht h
    rw [al_write_loop] at h
    split at h
    · rename_i hlen
      simp only [Option.some.injEq, Prod.mk.injEq] at h
      obtain ⟨-, rfl, -⟩ := h
      exact ⟨ht, rfl, fun h1 => Or.inr ⟨hlen, h1⟩⟩
    · have havail : size_sub OPENAL_BUFSIZE st.al.tmpbuf_ptr = OPENAL_BUFSIZE - st.al.tmpbuf_ptr :=
        size_sub_le ht (by unfold OPENAL_BUFSIZE SIZE_T_MOD; omega)
      have hrc1 : min (OPENAL_BUFSIZE - st.al.tmpbuf_ptr) len ≤ OPENAL_BUFSIZE - st.al.tmpbuf_ptr :=
        Nat.min_le_left _ _
      simp only [havail] at h
      generalize min (OPENAL_BUFSIZE - st.al.tmpbuf_ptr) len = rc at hrc1 h
      have hmod : (st.al.tmpbuf_ptr + rc) % SIZE_T_MOD = st.al.tmpbuf_ptr + rc := by
        apply Nat.mod_eq_of_lt
        unfold OPENAL_BUFSIZE SIZE_T_MOD at *; omega
      simp only [hmod] at h
      split at h
      · rename_i hne
        simp only [Option.some.injEq, Prod.mk.injEq] at h
        obtain ⟨-, rfl, -⟩ := h
        refine ⟨?_, rfl, fun h1 => absurd h1 hne⟩
        simp only [OPENAL_BUFSIZE] at *; omega
      · rename_i hfull
        simp only [ne_eq, Decidable.not_not] at hfull
        split at h
        · simp at h
        · rename_i st1 polls1 hg
          simp only [Option.some.injEq, Prod.mk.injEq] at h
          obtain ⟨-, rfl, -⟩ := h
          obtain ⟨g1, g2, g3⟩ := al_get_buffer_frame _ _ _ _ _ hg
          refine ⟨?_, g2, fun _ => Or.inl (g3 rfl)⟩
          rw [g1]; simp only [hfull]; exact Nat.le_refl _
        · rename_i buffer st1 polls1 hg
          obtain ⟨g1, g2, -⟩ := al_get_buffer_frame _ _ _ _ _ hg
          obtain ⟨i1, i2, i3⟩ := ih _ _ _ _ _ _ _ _ _ (by simp) h
          refine ⟨i1, by rw [i2]; exact g2, fun h1 => ?_⟩
          rcases i3 h1 with h2 | ⟨-, h3⟩
          · exact Or.inl h2
          · simp [OPENAL_BUFSIZE] at h3


theorem take_succ_set (arr : List ALuint) : ∀ (i : Nat) (x : ALuint), i < arr.length →
    (arr.set i x).take (i + 1) = arr.take i ++ [x] := by
  induction arr with
  | nil => intro i x h; simp at h
  | cons a arr ih =>
    intro i x h
    cases i with
    | zero => simp
    | succ i =>
      simp only [List.length_cons, Nat.add_lt_add_iff_right] at h
      simp [ih i x h]

theorem write_at_length (xs : List ALuint) : ∀ (arr : List ALuint) (i : Nat),
    (write_at arr i xs).length = arr.length := by
  induction xs with
  | nil => intro arr i; rfl
  | cons x xs ih => intro arr i; simp [write_at, ih]

theorem write_at_take (xs : List ALuint) : ∀ (arr : List ALuint) (i : Nat),
    i + xs.length ≤ arr.length → (write_at arr i xs).take (i + xs.length) = arr.take i ++ xs := by
  induction xs with
  | nil => intro arr i _; simp [write_at]
  | cons x xs ih =>
    intro arr i h
    simp only [List.length_cons] at h
    have h1 := ih (arr.set i x) (i + 1) (by simp; omega)
    simp only [write_at, List.length_cons]
    rw [show i + (xs.length + 1) = i + 1 + xs.length by omega, h1,
      take_succ_set arr i x (by omega)]
    simp

theorem al_unqueue_buffers_owned (st : St) (val : Int) (held : List ALuint) :
    (al_unqueue_buffers st val).2.al.buffers = st.al.buffers ∧
    ((al_unqueue_buffers st val).2.src.misreported = false → st.src.misreported = false) ∧
    ((al_unqueue_buffers st val).2.src.misreported = false → held = [] → Owned st held →
      Owned (al_unqueue_buffers st val).2 held ∧
      ((al_unqueue_buffers st val).1 = true → (al_unqueue_buffers st val).2.al.res_ptr ≠ 0)) := by
  by_cases hpos : val ≤ 0
  · simp [al_unqueue_buffers, hpos]
  · have hn : 0 < Int.toNat val := by omega
    simp only [al_unqueue_buffers, hpos, if_false]
    refine ⟨trivial, ?_, ?_⟩
    · intro h; simp only [Bool.or_eq_false_iff] at h; exact h.1
    · intro h hh ho
      subst hh
      simp only [Bool.or_eq_false_iff, decide_eq_false_iff_not, Nat.not_lt] at h
      obtain ⟨-, hle⟩ := h
      have hcount := ho.count
      simp only [List.length_nil, Nat.add_zero] at hcount
      have hlen : (st.src.queue.take val.toNat).length = val.toNat := by
        simp [List.length_take, hle]
      refine ⟨⟨?_, ?_, ?_, ho.fresh, ho.num⟩, ?_⟩
      · simp [write_at_length, ho.res_len]
      · simp only [List.length_nil, Nat.add_zero, List.length_drop]
        omega
      · have := write_at_take (st.src.queue.take val.toNat) st.al.res_buf st.al.res_ptr
          (by rw [hlen, ho.res_len]; omega)
        rw [hlen] at this
        simp only [this, List.nil_append, List.append_assoc, List.take_append_drop]
        simpa using ho.perm
      · intro _; omega

theorem owned_tmpbuf (st : St) (held : List ALuint) (t : Nat) (h : Owned st held) :
    Owned { st with al := { st.al with tmpbuf_ptr := t } } held :=
  ⟨h.res_len, h.count, h.perm, h.fresh, h.num⟩

theorem al_wait_buffer_owned (polls : List Int) : ∀ (st : St) (b : Bool) (st2 : St)
    (polls2 : List Int), al_wait_buffer st polls = some (b, st2, polls2) →
    st2.al.buffers = st.al.buffers ∧
    (st2.src.misreported = false → st.src.misreported = false) ∧
    (st2.src.misreported = false → Owned st [] →
      Owned st2 [] ∧ (b = true → st2.al.res_ptr ≠ 0)) := by
  induction polls with
  | nil =>
    intro st b st2 polls2 h
    simp only [al_wait_buffer] at h
    split at h
    · simp only [Option.some.injEq, Prod.mk.injEq] at h
      obtain ⟨rfl, rfl, rfl⟩ := h
      exact ⟨rfl, id, fun _ ho => ⟨ho, by simp⟩⟩
    · simp at h
  | cons val polls ih =>
    intro st b st2 polls2 h
    obtain ⟨u1, u2, u3⟩ := al_unqueue_buffers_owned st val []
    simp only [al_wait_buffer] at h
    split at h
    · rename_i htrue
      simp only [Option.some.injEq, Prod.mk.injEq] at h
      obtain ⟨rfl, rfl, rfl⟩ := h
      exact ⟨u1, u2, fun hm ho => ⟨(u3 hm rfl ho).1, fun _ => (u3 hm rfl ho).2 htrue⟩⟩
    · split at h
      · simp only [Option.some.injEq, Prod.mk.injEq] at h
        obtain ⟨rfl, rfl, rfl⟩ := h
        exact ⟨u1, u2, fun hm ho => ⟨(u3 hm rfl ho).1, by simp⟩⟩
      · obtain ⟨i1, i2, i3⟩ := ih _ _ _ _ h
        exact ⟨i1.trans u1, fun hm => u2 (i2 hm),
          fun hm ho => i3 hm (u3 (i2 hm) rfl ho).1⟩

theorem al_pop_buffer_owned (st : St) (ho : Owned st []) (hr : st.al.res_ptr ≠ 0) :
    Owned (al_pop_buffer st).2 [(al_pop_buffer st).1] := by
  have hcount := ho.count
  simp only [List.length_nil, Nat.add_zero] at hcount
  have hlt : st.al.res_ptr - 1 < st.al.res_buf.length := by rw [ho.res_len]; omega
  have htake : st.al.res_buf.take st.al.res_ptr
      = st.al.res_buf.take (st.al.res_ptr - 1) ++ [st.al.res_buf.getD (st.al.res_ptr - 1) 0] := by
    have h1 : st.al.res_ptr = (st.al.res_ptr - 1) + 1 := by omega
    conv_lhs => rw [h1, List.take_succ]
    simp [List.getElem?_eq_getElem hlt]
  refine ⟨ho.res_len, ?_, ?_, ho.fresh, ho.num⟩
  · simp only [al_pop_buffer, List.length_singleton]
    omega
  · have hp := ho.perm
    rw [htake] at hp
    simpa [al_pop_buffer] using hp

theorem al_get_buffer_owned (st : St) (polls : List Int) (ob : Option ALuint) (st2 : St)
    (polls2 : List Int) (h : al_get_buffer st polls = some (ob, st2, polls2)) :
    st2.al.buffers = st.al.buffers ∧
    (st2.src.misreported = false → st.src.misreported = false) ∧
    (st2.src.misreported = false → Owned st [] → Owned st2 ob.toList) := by
  unfold al_get_buffer at h
  split at h
  · split at h
    · simp at h
    · rename_i st1 polls1 hw
      simp only [Option.some.injEq, Prod.mk.injEq] at h
      obtain ⟨rfl, rfl, rfl⟩ := h
      obtain ⟨w1, w2, w3⟩ := al_wait_buffer_owned _ _ _ _ _ hw
      exact ⟨w1, w2, fun hm ho => (w3 hm ho).1⟩
    · rename_i st1 polls1 hw
      simp only [Option.some.injEq, Prod.mk.injEq] at h
      obtain ⟨rfl, rfl, rfl⟩ := h
      obtain ⟨w1, w2, w3⟩ := al_wait_buffer_owned _ _ _ _ _ hw
      refine ⟨w1, w2, fun hm ho => ?_⟩
      have hm1 : st1.src.misreported = false := hm
      exact al_pop_buffer_owned st1 (w3 hm1 ho).1 ((w3 hm1 ho).2 rfl)
  · rename_i hr
    simp only [Option.some.injEq, Prod.mk.injEq] at h
    obtain ⟨rfl, rfl, rfl⟩ := h
    exact ⟨rfl, id, fun _ ho => al_pop_buffer_owned st ho hr⟩

theorem al_submit_owned (st : St) (b : ALuint) (data : Option (List Nat))
    (hnd : st.al.buffers.Nodup) (ho : Owned st [b]) :
    Owned ⟨{ st.al with tmpbuf_ptr := 0 }, al_submit st.src b data⟩ [] := by
  have hnd2 : (st.al.res_buf.take st.al.res_ptr ++ ([b] ++ st.src.queue)).Nodup :=
    ho.perm.nodup_iff.mpr hnd
  have hb : b ∉ st.src.queue := by
    have h1 := (List.nodup_append.mp hnd2).2.1
    simpa using (List.nodup_cons.mp (by simpa using h1)).1
  have hcount := ho.count
  refine ⟨ho.res_len, ?_, ?_, ?_, ho.num⟩
  · simp only [al_submit, List.length_nil, List.length_append, List.length_singleton] at *
    omega
  · have hp := ho.perm
    simp only [al_submit, List.nil_append]
    refine List.Perm.trans ?_ hp
    exact List.Perm.append_left _ List.perm_append_comm
  · simp [al_submit, ho.fresh, hb]

theorem al_write_loop_owned (fuel : Nat) : ∀ (st : St) (polls : List Int) (s : List Nat)
    (pos len acc r : Nat) (st2 : St) (polls2 : List Int),
    al_write_loop fuel st polls s pos len acc = some (r, st2, polls2) →
    st2.al.buffers = st.al.buffers ∧
    (st2.src.misreported = false → st.src.misreported = false) ∧
    (st2.src.misreported = false → st.al.buffers.Nodup → Owned st [] → Owned st2 []) := by
  induction fuel with
  | zero => intro st polls s pos len acc r st2 polls2 h; simp [al_write_loop] at h
  | succ fuel ih =>
    intro st polls s pos len acc r st2 polls2 h
    rw [al_write_loop] at h
    split at h
    · simp only [Option.some.injEq, Prod.mk.injEq] at h
      obtain ⟨-, rfl, -⟩ := h
      exact ⟨rfl, id, fun _ _ ho => ho⟩
    · simp only at h
      split at h
      · simp only [Option.some.injEq, Prod.mk.injEq] at h
        obtain ⟨-, rfl, -⟩ := h
        exact ⟨rfl, id, fun _ _ ho => owned_tmpbuf st [] _ ho⟩
      · split at h
        · simp at h
        · rename_i st1 polls1 hg
          simp only [Option.some.injEq, Prod.mk.injEq] at h
          obtain ⟨-, rfl, -⟩ := h
          obtain ⟨g1, g2, g3⟩ := al_get_buffer_owned _ _ _ _ _ hg
          exact ⟨g1, g2, fun hm _ ho => g3 hm (owned_tmpbuf st [] _ ho)⟩
        · rename_i buffer st1 polls1 hg
          obtain ⟨g1, g2, g3⟩ := al_get_buffer_owned _ _ _ _ _ hg
          obtain ⟨i1, i2, i3⟩ := ih _ _ _ _ _ _ _ _ _ h
          have hm1 : st2.src.misreported = false → st1.src.misreported = false := by
            intro hm; simpa [al_submit] using i2 hm
          refine ⟨i1.trans g1, fun hm => g2 (hm1 hm), fun hm hnd ho => ?_⟩
          have hnd1 : st1.al.buffers.Nodup := by rw [g1]; exact hnd
          exact i3 hm hnd1 (al_submit_owned st1 buffer _ hnd1
            (g3 (hm1 hm) (owned_tmpbuf st [] _ ho)))


theorem al_num_buffers_ge (float_ext : Bool) (rate latency : Nat) :
    2 ≤ al_num_buffers float_ext rate latency := by
  unfold al_num_buffers
  simp only
  split <;> omega

theorem to_ALsizei_lt (n : Nat) : to_ALsizei n < 2147483648 := by
  unfold to_ALsizei UINT_MOD
  split <;> omega

theorem al_num_buffers_lt (float_ext : Bool) (rate latency : Nat) :
    al_num_buffers float_ext rate latency < 2147483648 := by
  unfold al_num_buffers
  simp only
  have := to_ALsizei_lt
    (size_sub (al_latency_bytes float_ext rate latency / (1000 * OPENAL_BUFSIZE)) 1)
  split <;> omega

theorem opened_fields (st : St) (h : Opened st) :
    st.al.tmpbuf_ptr = 0 ∧ st.al.nonblock = false ∧ st.al.res_buf = st.al.buffers ∧
    st.al.res_ptr = st.al.buffers.length ∧ (st.al.buffers.length : Int) = st.al.num_buffers ∧
    2 ≤ st.al.num_buffers ∧ st.src.queue = [] ∧ st.src.submitted = [] ∧
    st.src.misreported = false ∧ st.src.requeued = false ∧
    st.al.num_buffers < 2147483648 := by
  obtain ⟨env, rate, latency, h⟩ := h
  unfold al_init at h
  split at h
  · simp at h
  · split at h
    · simp at h
    · split at h
      · simp at h
      · simp only at h
        split at h
        · simp at h
        · simp only [Option.some.injEq] at h
          subst h
          have := al_num_buffers_ge env.float_ext rate latency
          simp only [List.length_map, List.length_range, true_and]
          exact ⟨Int.toNat_of_nonneg (by omega), this,
            al_num_buffers_lt env.float_ext rate latency⟩

theorem reachable_tmpbuf (st : St) (h : Reachable st) : st.al.tmpbuf_ptr ≤ OPENAL_BUFSIZE := by
  induction h with
  | init st ho => rw [(opened_fields st ho).1]; exact Nat.zero_le _
  | write st polls s r st2 polls2 _ hw ih =>
    exact (al_write_loop_tmpbuf _ _ _ _ _ _ _ _ _ _ ih hw).1
  | write_avail st val st2 _ he ih =>
    subst he
    simp only [al_write_avail]
    rw [(al_unqueue_buffers_frame st val).1]; exact ih
  | stop st al2 st2 _ he h2 ih =>
    subst h2
    simp only [al_stop, Option.some.injEq] at he
    subst he; exact ih
  | start st b al2 st2 _ he h2 ih =>
    subst h2
    simp only [al_start, Option.some.injEq] at he
    subst he; exact ih
  | set_nonblock st b al2 st2 _ he h2 ih =>
    subst h2
    simp only [al_set_nonblock_state, Option.some.injEq] at he
    subst he; exact ih

theorem reachable_owned (st : St) (h : Reachable st) :
    st.src.misreported = false → st.al.buffers.Nodup → Owned st [] := by
  induction h with
  | init st ho =>
    intro _ _
    obtain ⟨-, -, h3, h4, h5, -, h7, -, -, h10, -⟩ := opened_fields st ho
    refine ⟨by rw [h3], by simp [h4, h7], ?_, h10, h5⟩
    rw [h3, h4, h7]; simp
  | write st polls s r st2 polls2 _ hw ih =>
    intro hm hnd
    obtain ⟨w1, w2, w3⟩ := al_write_loop_owned _ _ _ _ _ _ _ _ _ _ hw
    rw [w1] at hnd
    exact w3 hm hnd (ih (w2 hm) hnd)
  | write_avail st val st2 _ he ih =>
    subst he
    intro hm hnd
    obtain ⟨u1, u2, u3⟩ := al_unqueue_buffers_owned st val []
    simp only [al_write_avail] at hm hnd ⊢
    rw [u1] at hnd
    exact (u3 hm rfl (ih (u2 hm) hnd)).1
  | stop st al2 st2 _ he h2 ih =>
    subst h2
    simp only [al_stop, Option.some.injEq] at he
    subst he
    intro hm hnd
    have ho := ih hm hnd
    exact ⟨ho.res_len, ho.count, ho.perm, ho.fresh, ho.num⟩
  | start st b al2 st2 _ he h2 ih =>
    subst h2
    simp only [al_start, Option.some.injEq] at he
    subst he
    intro hm hnd
    have ho := ih hm hnd
    exact ⟨ho.res_len, ho.count, ho.perm, ho.fresh, ho.num⟩
  | set_nonblock st b al2 st2 _ he h2 ih =>
    subst h2
    simp only [al_set_nonblock_state, Option.some.injEq] at he
    subst he
    intro hm hnd
    have ho := ih hm hnd
    exact ⟨ho.res_len, ho.count, ho.perm, ho.fresh, ho.num⟩

theorem demo_stream_reachable : Reachable demo_stream := by
  refine Reachable.set_nonblock ⟨{ demo_stream.al with nonblock := false }, demo_stream.src⟩ true
    demo_stream.al demo_stream (Reachable.init _ ⟨demo_env, 48000, 0, by decide⟩) (by decide) (by decide)

theorem al_write_seq_quiet (calls : List (List Int × List Nat)) : ∀ (st : St),
    st.al.nonblock = true → st.al.tmpbuf_ptr ≤ OPENAL_BUFSIZE →
    (∀ c ∈ calls, ∀ p ∈ c.1, p ≤ 0) →
    ∃ rs st2, al_write_seq st calls = some (rs, st2) ∧
      st2.al.nonblock = true ∧ st2.al.tmpbuf_ptr ≤ OPENAL_BUFSIZE ∧
      room st2 + rs.sum = room st ∧ st2.al.num_buffers = st.al.num_buffers := by
  induction calls with
  | nil => intro st hnb ht _; exact ⟨[], st, rfl, hnb, ht, by simp, rfl⟩
  | cons c calls ih =>
    intro st hnb ht hq
    obtain ⟨st1, polls1, h1, h2, h3, -, h5, h6⟩ :=
      al_write_quiet st c.1 c.2 hnb ht (hq c (List.mem_cons_self _ _))
    obtain ⟨rs, st2, i1, i2, i3, i4, i5⟩ :=
      ih st1 h2 h3 (fun c' hc' => hq c' (List.mem_cons_of_mem _ hc'))
    refine ⟨min c.2.length (room st) :: rs, st2, ?_, i2, i3, ?_, i5.trans h6⟩
    · simp only [al_write_seq, h1, i1]
    · simp only [List.sum_cons]; omega

theorem al_buffer_size_eq (al : al_t) (n : Nat) (h : (n : Int) = al.num_buffers)
    (hlt : al.num_buffers < 2147483648) :
    al_buffer_size al = (n + 1) * OPENAL_BUFSIZE := by
  unfold al_buffer_size OPENAL_BUFSIZE SIZE_T_MOD
  rw [← h] at hlt ⊢
  omega

theorem al_get_buffer_nonblock_returns (st : St) (polls : List Int)
    (hnb : st.al.nonblock = true) : ∃ r, al_get_buffer st polls = some r := by
  unfold al_get_buffer
  split
  · have hw : ∃ w, al_wait_buffer st polls = some w := by
      cases polls with
      | nil => simp [al_wait_buffer, hnb]
      | cons v ps =>
        simp only [al_wait_buffer, hnb, if_true]
        split <;> exact ⟨_, rfl⟩
    obtain ⟨⟨b, st1, polls1⟩, hw⟩ := hw
    rw [hw]
    cases b <;> exact ⟨_, rfl⟩
  · exact ⟨_, rfl⟩

theorem al_write_loop_nonblock_returns (fuel : Nat) : ∀ (st : St) (polls : List Int)
    (s : List Nat) (pos len acc : Nat), st.al.nonblock = true →
    len + 1 + (if st.al.tmpbuf_ptr = 0 then 0 else 1) ≤ fuel →
    ∃ r, al_write_loop fuel st polls s pos len acc = some r := by
  induction fuel with
  | zero => intro st polls s pos len acc _ hf; omega
  | succ fuel ih =>
    intro st polls s pos len acc hnb hf
    rw [al_write_loop]
    by_cases hlen : len = 0
    · simp [hlen]
    · simp only [hlen, if_false]
      split
      · exact ⟨_, rfl⟩
      · obtain ⟨⟨ob, st2, polls2⟩, hg⟩ := al_get_buffer_nonblock_returns
          { st with al := { st.al with tmpbuf_ptr :=
              (st.al.tmpbuf_ptr + min (size_sub OPENAL_BUFSIZE st.al.tmpbuf_ptr) len)
                % SIZE_T_MOD } } polls (by simpa using hnb)
        obtain ⟨-, g2, -⟩ := al_get_buffer_frame _ _ _ _ _ hg
        rw [hg]
        cases ob with
        | none => exact ⟨_, rfl⟩
        | some buffer =>
          simp only
          apply ih
          · simpa [hnb] using g2
          · simp only [if_true]
            by_cases ht : st.al.tmpbuf_ptr = 0
            · have hav : size_sub OPENAL_BUFSIZE st.al.tmpbuf_ptr = 1024 := by
                rw [ht]; decide
              rw [hav]
              simp only [ht, if_true] at hf
              have : 1 ≤ min 1024 len := by
                rw [Nat.min_def]; split_ifs <;> omega
              omega
            · simp only [ht, if_false] at hf
              omega

/-- In nonblocking mode `al_write` returns, whatever the backend answers. -/
theorem al_write_nonblock_returns (st : St) (polls : List Int) (s : List Nat)
    (hnb : st.al.nonblock = true) : ∃ r, al_write st polls s = some r :=
  al_write_loop_nonblock_returns _ st polls s 0 s.length 0 hnb (by split_ifs <;> omega)

/-- The bound on the iterations of the `al_write` loop is never what ends a
run: from `len + 2` on, a larger bound gives the same result. -/
theorem al_write_loop_fuel_irrelevant (fuel : Nat) : ∀ (st : St) (polls : List Int)
    (s : List Nat) (pos len acc : Nat),
    len + 1 + (if st.al.tmpbuf_ptr = 0 then 0 else 1) ≤ fuel →
    al_write_loop (fuel + 1) st polls s pos len acc = al_write_loop fuel st polls s pos len acc := by
  induction fuel with
  | zero => intro st polls s pos len acc hf; omega
  | succ fuel ih =>
    intro st polls s pos len acc hf
    rw [al_write_loop, al_write_loop]
    by_cases hlen : len = 0
    · simp [hlen]
    · simp only [hlen, if_false]
      split
      · rfl
      · split
        · rfl
        · rfl
        · apply ih
          simp only [if_true]
          by_cases ht : st.al.tmpbuf_ptr = 0
          · have hav : size_sub OPENAL_BUFSIZE st.al.tmpbuf_ptr = 1024 := by
              rw [ht]; decide
            rw [hav]
            simp only [ht, if_true] at hf
            have : 1 ≤ min 1024 len := by
              rw [Nat.min_def]; split_ifs <;> omega
            omega
          · simp only [ht, if_false] at hf
            omega

/-- C1 (the code breaks it).  The claim: the chunks handed to the backend are,
in order, the bytes the `al_write` calls reported as accepted.  On a freshly
opened stream a write of the byte `7` is accepted (returns 1), then a write of
1024 bytes `9` returns 1024 and hands one chunk to the backend: that chunk is
the 1024 bytes of the second input, whereas the first 1024 accepted bytes are
`7` followed by 1023 bytes `9`.  The accepted byte `7` is never delivered. -/
theorem al_write_chunk_skips_accumulated_bytes :
    ((al_init demo_env 48000 0).bind fun st0 =>
      (al_write st0 [] [7]).bind fun r1 =>
        (al_write r1.2.1 [] (List.replicate 1024 9)).map fun r2 =>
          (r1.1, r2.1, r2.2.1.src.submitted))
      = some (1, 1024, [some (List.replicate 1024 9)]) ∧
    List.take 1024 ([7] ++ List.replicate 1024 9) = 7 :: List.replicate 1023 9 ∧
    (7 :: List.replicate 1023 9) ≠ List.replicate 1024 9 := by
  decide!

/-- C2.  In nonblocking mode, with `A` the value `al_write_avail` has just
reported, the accumulator index at most 1024 and no buffer completed by the
backend during the call, `al_write` returns exactly `min len A`: never more
than `A`, and all `len` bytes when `len ≤ A`. -/
theorem al_write_returns_min_avail (st0 : St) (val : Int) (polls : List Int) (s : List Nat)
    (hnb : (al_write_avail st0 val).2.al.nonblock = true)
    (ht : (al_write_avail st0 val).2.al.tmpbuf_ptr ≤ OPENAL_BUFSIZE)
    (hq : ∀ p ∈ polls, p ≤ 0) :
    ∃ r st2 polls2, al_write (al_write_avail st0 val).2 polls s = some (r, st2, polls2) ∧
      r = min s.length (al_write_avail st0 val).1 ∧
      r ≤ (al_write_avail st0 val).1 ∧
      (s.length ≤ (al_write_avail st0 val).1 → r = s.length) := by
  obtain ⟨st2, polls2, h, -⟩ := al_write_quiet (al_write_avail st0 val).2 polls s hnb ht hq
  rw [← al_write_avail_eq_room st0 val ht] at h
  exact ⟨_, st2, polls2, h, rfl, Nat.min_le_right _ _, fun hle => Nat.min_eq_left hle⟩

/-- Witness of `al_write_returns_min_avail`: the two-buffer stream, asked for
5000 bytes when 3072 are available, takes 3072. -/
theorem al_write_returns_min_avail_witness :
    ∃ r st2 polls2,
      al_write (al_write_avail demo_stream 0).2 [0] (List.replicate 5000 1) = some (r, st2, polls2) ∧
      r = min (List.replicate 5000 1).length (al_write_avail demo_stream 0).1 ∧
      r ≤ (al_write_avail demo_stream 0).1 ∧
      ((List.replicate 5000 1).length ≤ (al_write_avail demo_stream 0).1 →
        r = (List.replicate 5000 1).length) :=
  al_write_returns_min_avail demo_stream 0 [0] (List.replicate 5000 1) (by decide) (by decide)
    (by decide)

/-- C3 (as stated it fails).  The two-buffer stream in nonblocking mode is
reachable, and a write of 3072 bytes with no buffer completed returns 3072 and
leaves `tmpbuf_ptr = 1024`, which is not below `OPENAL_BUFSIZE`. -/
theorem al_write_can_leave_accumulator_full :
    Reachable demo_stream ∧
    al_write demo_stream [] (List.replicate 3072 0) = some (3072, demo_stream_full, []) ∧
    demo_stream_full.al.tmpbuf_ptr = 1024 ∧
    ¬ (demo_stream_full.al.tmpbuf_ptr < OPENAL_BUFSIZE) :=
  ⟨demo_stream_reachable, by decide!, by decide, by decide⟩

/-- C3 (amended).  After every `al_write` on a reachable stream
`tmpbuf_ptr ≤ OPENAL_BUFSIZE`; after a write of a non-empty input it equals
`OPENAL_BUFSIZE` only if the stream is nonblocking and the free stack is
empty, so it is below `OPENAL_BUFSIZE` in every other case. -/
theorem al_write_tmpbuf_ptr_bound (st : St) (hr : Reachable st) (polls : List Int)
    (s : List Nat) (r : Nat) (st2 : St) (polls2 : List Int)
    (hw : al_write st polls s = some (r, st2, polls2)) :
    st2.al.tmpbuf_ptr ≤ OPENAL_BUFSIZE ∧
    (s ≠ [] → st2.al.tmpbuf_ptr = OPENAL_BUFSIZE →
      st2.al.nonblock = true ∧ st2.al.res_ptr = 0) := by
  obtain ⟨h1, -, h3⟩ :=
    al_write_loop_tmpbuf _ _ _ _ _ _ _ _ _ _ (reachable_tmpbuf st hr) hw
  refine ⟨h1, fun hs hfull => ?_⟩
  rcases h3 hfull with h | ⟨h, -⟩
  · exact h
  · exact absurd (List.length_eq_zero.mp h) hs

/-- Witness of `al_write_tmpbuf_ptr_bound`: the write of 3072 bytes to the
two-buffer stream. -/
theorem al_write_tmpbuf_ptr_bound_witness :
    demo_stream_full.al.tmpbuf_ptr ≤ OPENAL_BUFSIZE ∧
    (List.replicate 3072 0 ≠ [] → demo_stream_full.al.tmpbuf_ptr = OPENAL_BUFSIZE →
      demo_stream_full.al.nonblock = true ∧ demo_stream_full.al.res_ptr = 0) :=
  al_write_tmpbuf_ptr_bound demo_stream demo_stream_reachable [] (List.replicate 3072 0) 3072
    demo_stream_full [] (by decide!)

/-- C4.  In every state reachable from `al_init`, as long as the backend has
not reported more processed buffers than were queued and the names
`alGenBuffers` gave are distinct: the free stack `res_buf[0..res_ptr)` and the
backend queue are disjoint, together they are exactly the names allocated at
open, `res_ptr + queuedCount = num_buffers`, `res_ptr ≤ num_buffers`, and no
buffer was ever queued while it was still in the queue. -/
theorem slot_ownership_exclusive (st : St) (hr : Reachable st)
    (hb : st.src.misreported = false) (hnd : st.al.buffers.Nodup) :
    List.Disjoint (st.al.res_buf.take st.al.res_ptr) st.src.queue ∧
    List.Perm (st.al.res_buf.take st.al.res_ptr ++ st.src.queue) st.al.buffers ∧
    (st.al.buffers.length : Int) = st.al.num_buffers ∧
    ((st.al.res_ptr + st.src.queue.length : Nat) : Int) = st.al.num_buffers ∧
    (st.al.res_ptr : Int) ≤ st.al.num_buffers ∧
    st.src.requeued = false := by
  have ho := reachable_owned st hr hb hnd
  have hp : List.Perm (st.al.res_buf.take st.al.res_ptr ++ st.src.queue) st.al.buffers := by
    simpa using ho.perm
  have hcount := ho.count
  simp only [List.length_nil, Nat.add_zero] at hcount
  refine ⟨?_, hp, ho.num, ?_, ?_, ho.fresh⟩
  · exact (List.nodup_append.mp (hp.nodup_iff.mpr hnd)).2.2
  · rw [hcount]; exact ho.num
  · rw [← ho.num]; omega

/-- Witness of `slot_ownership_exclusive`: the two-buffer stream after a write
of 2048 bytes, with both buffers queued. -/
theorem slot_ownership_exclusive_witness :
    List.Disjoint (demo_stream_queued.al.res_buf.take demo_stream_queued.al.res_ptr)
      demo_stream_queued.src.queue ∧
    List.Perm (demo_stream_queued.al.res_buf.take demo_stream_queued.al.res_ptr
      ++ demo_stream_queued.src.queue) demo_stream_queued.al.buffers ∧
    (demo_stream_queued.al.buffers.length : Int) = demo_stream_queued.al.num_buffers ∧
    ((demo_stream_queued.al.res_ptr + demo_stream_queued.src.queue.length : Nat) : Int)
      = demo_stream_queued.al.num_buffers ∧
    (demo_stream_queued.al.res_ptr : Int) ≤ demo_stream_queued.al.num_buffers ∧
    demo_stream_queued.src.requeued = false :=
  slot_ownership_exclusive demo_stream_queued
    (Reachable.write demo_stream [] (List.replicate 2048 0) 2048 demo_stream_queued []
      demo_stream_reachable (by decide!))
    (by decide) (by decide)

/-- C5.  On a freshly opened stream put in nonblocking mode, for every run of
`al_write` calls during which the backend completes no buffer: every call
returns, the sum of the returned values is at most `al_buffer_size`, it
equals `al_buffer_size` less what `al_write_avail` then reports, it is the
full capacity exactly when `al_write_avail` reports 0, and right after open
`al_write_avail` reports `al_buffer_size = (num_buffers + 1) * 1024`. -/
theorem al_write_sum_is_capacity_less_avail (st0 : St) (ho : Opened st0) (al1 : al_t)
    (h1 : al_set_nonblock_state (some st0.al) true = some al1)
    (calls : List (List Int × List Nat)) (hq : ∀ c ∈ calls, ∀ p ∈ c.1, p ≤ 0)
    (val : Int) (hv : val ≤ 0) :
    ∃ rs st2, al_write_seq ⟨al1, st0.src⟩ calls = some (rs, st2) ∧
      (al_buffer_size st2.al : Int) = (st2.al.num_buffers + 1) * 1024 ∧
      rs.sum ≤ al_buffer_size st2.al ∧
      rs.sum = al_buffer_size st2.al - (al_write_avail st2 val).1 ∧
      rs.sum + (al_write_avail st2 val).1 = al_buffer_size st2.al ∧
      (rs.sum = al_buffer_size st2.al ↔ (al_write_avail st2 val).1 = 0) ∧
      (al_write_avail ⟨al1, st0.src⟩ val).1 = al_buffer_size al1 := by
  obtain ⟨f1, -, -, f4, f5, -, -, -, -, -, f11⟩ := opened_fields st0 ho
  simp only [al_set_nonblock_state, Option.some.injEq] at h1
  subst h1
  obtain ⟨rs, st2, h2, h3, h4, h5, h6⟩ :=
    al_write_seq_quiet calls ⟨{ st0.al with nonblock := true }, st0.src⟩ rfl
      (by simp [f1]) hq
  have hsize := al_buffer_size_eq st0.al st0.al.buffers.length f5 f11
  have hsize2 : al_buffer_size st2.al = (st0.al.buffers.length + 1) * OPENAL_BUFSIZE := by
    unfold al_buffer_size at hsize ⊢
    rw [h6]; exact hsize
  have hroom0 : room ⟨{ st0.al with nonblock := true }, st0.src⟩
      = (st0.al.buffers.length + 1) * OPENAL_BUFSIZE := by
    simp only [room, f1, f4]
    unfold OPENAL_BUFSIZE; omega
  have havail : ∀ st : St, st.al.tmpbuf_ptr ≤ OPENAL_BUFSIZE →
      (al_write_avail st val).1 = room st := by
    intro st ht
    have hst : (al_write_avail st val).2 = st := by
      simp [al_write_avail, al_unqueue_buffers_quiet st hv]
    have := al_write_avail_eq_room st val (by rw [hst]; exact ht)
    rw [hst] at this; exact this
  have ha2 := havail st2 h4
  have ha0 := havail ⟨{ st0.al with nonblock := true }, st0.src⟩ (by simp [f1])
  rw [hroom0] at h5 ha0
  refine ⟨rs, st2, h2, ?_, ?_, ?_, ?_, ?_, ?_⟩
  · rw [hsize2, h6]
    simp only [OPENAL_BUFSIZE]
    rw [← f5]
    push_cast
    ring
  · rw [hsize2]; omega
  · rw [hsize2, ha2]; omega
  · rw [hsize2, ha2]; omega
  · rw [hsize2, ha2]; omega
  · rw [ha0]
    unfold al_buffer_size at hsize ⊢
    exact hsize.symm

/-- Witness of `al_write_sum_is_capacity_less_avail`: the two-buffer stream,
written 1000 bytes and then 5000 bytes. -/
theorem al_write_sum_is_capacity_less_avail_witness :
    ∃ rs st2, al_write_seq ⟨demo_stream.al, demo_stream.src⟩
        [([], List.replicate 1000 1), ([0], List.replicate 5000 2)] = some (rs, st2) ∧
      (al_buffer_size st2.al : Int) = (st2.al.num_buffers + 1) * 1024 ∧
      rs.sum ≤ al_buffer_size st2.al ∧
      rs.sum = al_buffer_size st2.al - (al_write_avail st2 0).1 ∧
      rs.sum + (al_write_avail st2 0).1 = al_buffer_size st2.al ∧
      (rs.sum = al_buffer_size st2.al ↔ (al_write_avail st2 0).1 = 0) ∧
      (al_write_avail ⟨demo_stream.al, demo_stream.src⟩ 0).1 = al_buffer_size demo_stream.al :=
  al_write_sum_is_capacity_less_avail
    ⟨{ demo_stream.al with nonblock := false }, demo_stream.src⟩
    ⟨demo_env, 48000, 0, by decide⟩ demo_stream.al (by decide)
    [([], List.replicate 1000 1), ([0], List.replicate 5000 2)] (by decide) 0 (by decide)

theorem al_init_num_buffers (env : ALenv) (rate latency : Nat) (st : St)
    (h : al_init env rate latency = some st) :
    st.al.num_buffers = al_num_buffers env.float_ext rate latency := by
  unfold al_init at h
  split at h
  · simp at h
  · split at h
    · simp at h
    · split at h
      · simp at h
      · simp only at h
        split at h
        · simp at h
        · simp only [Option.some.injEq] at h
          subst h
          simp only

/-- `al_init` succeeds when every allocation does. -/
theorem al_init_succeeds (env : ALenv) (rate latency : Nat)
    (h1 : env.calloc_ok = true) (h2 : env.device_ok = true) (h3 : env.ctx_ok = true)
    (h4 : env.arrays_ok = true) : ∃ st, al_init env rate latency = some st := by
  simp [al_init, h1, h2, h3, h4]

/-- While `latency * rate * 2` fits 32 bits, the buffer count of `al_init` is
`max 2 (latencyBytes / (1000 * 1024) - 1)` for the exact product
`latencyBytes`. -/
theorem al_num_buffers_exact (float_ext : Bool) (rate latency : Nat)
    (h : latency * rate * 2 < 4294967296) :
    al_num_buffers float_ext rate latency
      = max 2 (((latency * rate * 2 * (if float_ext then 4 else 2) : Nat) : Int)
          / (1000 * 1024) - 1) := by
  unfold al_num_buffers al_latency_bytes to_ALsizei size_sub UINT_MOD SIZE_T_MOD OPENAL_BUFSIZE
  rw [Nat.mod_eq_of_lt h]
  generalize latency * rate * 2 = p at h
  cases float_ext <;> simp only [if_true, if_false, Bool.false_eq_true] <;> omega

theorem al_wait_buffer_nonblock (st : St) (polls : List Int) (hnb : st.al.nonblock = true) :
    al_wait_buffer st polls
      = some ((al_unqueue_buffers st (polls.headD 0)).1,
              (al_unqueue_buffers st (polls.headD 0)).2, polls.tail) := by
  cases polls with
  | nil => simp [al_wait_buffer, hnb, al_unqueue_buffers]
  | cons v ps =>
    simp only [al_wait_buffer, hnb, if_true, List.headD_cons, List.tail_cons]
    split
    · rename_i h; rw [h]
    · rename_i h
      have : (al_unqueue_buffers st v).1 = false := by simpa using h
      rw [this]

theorem al_get_buffer_src (st : St) (polls : List Int) (ob : Option ALuint) (st2 : St)
    (polls2 : List Int) (h : al_get_buffer st polls = some (ob, st2, polls2)) :
    st2.src.submitted = st.src.submitted := by
  have hw : ∀ (polls : List Int) (st : St) (b : Bool) (st1 : St) (polls1 : List Int),
      al_wait_buffer st polls = some (b, st1, polls1) →
      st1.src.submitted = st.src.submitted := by
    intro polls
    induction polls with
    | nil =>
      intro st b st1 polls1 h
      simp only [al_wait_buffer] at h
      split at h
      · simp only [Option.some.injEq, Prod.mk.injEq] at h
        rw [← h.2.1]
      · simp at h
    | cons v ps ih =>
      intro st b st1 polls1 h
      have hu : (al_unqueue_buffers st v).2.src.submitted = st.src.submitted := by
        unfold al_unqueue_buffers
        split <;> rfl
      simp only [al_wait_buffer] at h
      split at h
      · simp only [Option.some.injEq, Prod.mk.injEq] at h
        rw [← h.2.1]; exact hu
      · split at h
        · simp only [Option.some.injEq, Prod.mk.injEq] at h
          rw [← h.2.1]; exact hu
        · exact (ih _ _ _ _ h).trans hu
  unfold al_get_buffer at h
  split at h
  · split at h
    · simp at h
    · rename_i st1 polls1 hh
      simp only [Option.some.injEq, Prod.mk.injEq] at h
      rw [← h.2.1]; exact hw _ _ _ _ _ hh
    · rename_i st1 polls1 hh
      simp only [Option.some.injEq, Prod.mk.injEq] at h
      rw [← h.2.1]; exact hw polls st true st1 polls1 hh
  · simp only [Option.some.injEq, Prod.mk.injEq] at h
    rw [← h.2.1]; rfl

/-- Entered with an empty accumulator, the `al_write` loop uploads only chunks
that lie inside the input. -/
theorem al_write_loop_aligned (fuel : Nat) : ∀ (st : St) (polls : List Int) (s : List Nat)
    (pos len acc r : Nat) (st2 : St) (polls2 : List Int),
    st.al.tmpbuf_ptr = 0 → pos + len = s.length →
    al_write_loop fuel st polls s pos len acc = some (r, st2, polls2) →
    ∃ chunks : List (List Nat), st2.src.submitted = st.src.submitted ++ chunks.map some := by
  induction fuel with
  | zero => intro st polls s pos len acc r st2 polls2 _ _ h; simp [al_write_loop] at h
  | succ fuel ih =>
    intro st polls s pos len acc r st2 polls2 ht hpos h
    rw [al_write_loop] at h
    split at h
    · simp only [Option.some.injEq, Prod.mk.injEq] at h
      exact ⟨[], by rw [← h.2.1]; simp⟩
    · have hav : size_sub OPENAL_BUFSIZE st.al.tmpbuf_ptr = 1024 := by rw [ht]; decide
      simp only [hav] at h
      rw [ht] at h
      simp only [Nat.zero_add] at h
      have hmod : min 1024 len % SIZE_T_MOD = min 1024 len := by
        apply Nat.mod_eq_of_lt
        have : min 1024 len ≤ 1024 := Nat.min_le_left _ _
        unfold SIZE_T_MOD; omega
      simp only [hmod] at h
      split at h
      · simp only [Option.some.injEq, Prod.mk.injEq] at h
        exact ⟨[], by rw [← h.2.1]; simp⟩
      · rename_i hfull
        simp only [ne_eq, Decidable.not_not, OPENAL_BUFSIZE] at hfull
        have hlen : 1024 ≤ len := by
          rw [Nat.min_def] at hfull; split_ifs at hfull <;> omega
        split at h
        · simp at h
        · rename_i st1 polls1 hg
          simp only [Option.some.injEq, Prod.mk.injEq] at h
          have := al_get_buffer_src _ _ _ _ _ hg
          exact ⟨[], by rw [← h.2.1, this]; simp⟩
        · rename_i buffer st1 polls1 hg
          have hs := al_get_buffer_src _ _ _ _ _ hg
          have hchunk : read_chunk s pos = some ((s.drop pos).take OPENAL_BUFSIZE) := by
            simp only [read_chunk, OPENAL_BUFSIZE]
            rw [if_pos (by omega)]
          rw [hchunk, hfull] at h
          obtain ⟨chunks, hc⟩ := ih _ _ _ _ _ _ _ _ _ rfl (by omega) h
          refine ⟨(s.drop pos).take OPENAL_BUFSIZE :: chunks, ?_⟩
          rw [hc]
          simp only [al_submit, hs, List.map_cons, List.append_assoc, List.singleton_append]

/-- On a stream whose accumulator is empty, every chunk `al_write` uploads lies
inside the caller's input. -/
theorem al_write_aligned_in_range (st : St) (polls : List Int) (s : List Nat) (r : Nat)
    (st2 : St) (polls2 : List Int) (ht : st.al.tmpbuf_ptr = 0)
    (h : al_write st polls s = some (r, st2, polls2)) :
    ∃ chunks : List (List Nat), st2.src.submitted = st.src.submitted ++ chunks.map some :=
  al_write_loop_aligned _ st polls s 0 s.length 0 r st2 polls2 ht (by omega) h

/-- C11.  For every rate and latency and either sample encoding, a successful
`al_init` yields `num_buffers ≥ 2`, and `al_buffer_size` on the stream it
returns is exactly `(num_buffers + 1) * 1024`. -/
theorem al_init_buffer_count_and_size (env : ALenv) (rate latency : Nat) (st : St)
    (h : al_init env rate latency = some st) :
    2 ≤ st.al.num_buffers ∧
    (al_buffer_size st.al : Int) = (st.al.num_buffers + 1) * 1024 := by
  obtain ⟨-, -, -, -, f5, f6, -, -, -, -, f11⟩ := opened_fields st ⟨env, rate, latency, h⟩
  refine ⟨f6, ?_⟩
  rw [al_buffer_size_eq st.al st.al.buffers.length f5 f11, ← f5]
  simp [OPENAL_BUFSIZE]

/-- Witness of `al_init_buffer_count_and_size`: rate 48000, latency 64 ms,
no float extension: eleven buffers, 12288 bytes. -/
theorem al_init_buffer_count_and_size_witness :
    2 ≤ scenario_stream.al.num_buffers ∧
    (al_buffer_size scenario_stream.al : Int) = (scenario_stream.al.num_buffers + 1) * 1024 :=
  al_init_buffer_count_and_size scenario_env 48000 64 scenario_stream (by decide)

/-- C12 (the code breaks it).  The claim: `num_buffers` is
`max 2 (latencyBytes / (1000 * 1024) - 1)` for the exact product
`latencyBytes = latency * rate * 2 * bytesPerSample`.  With rate 48000,
latency 44740 and 16-bit samples the exact product gives 8387 buffers;
`al_init` computes `latency * rate * 2` in 32 bits, gets `_latency = 145408`
and sets `num_buffers = 2`. -/
theorem al_init_latency_product_wraps :
    (al_init demo_env 48000 44740).map (fun st => st.al.num_buffers) = some 2 ∧
    al_latency_bytes false 48000 44740 = 145408 ∧
    max (2 : Int) ((44740 * 48000 * 2 * 2 : Int) / (1000 * 1024) - 1) = 8387 := by
  decide!

/-- C13.  `al_stop` sets `is_paused`, `al_start` clears it, each returns
`true` and leaves every other field of the record as it was; stopping a
stopped stream changes nothing; both take a null handle and return `true`;
`al_alive` holds exactly for a non-null handle that is not paused.  Neither
function has the OpenAL source among its arguments or results: the C
functions make no backend call. -/
theorem al_stop_start_pure_flags (al : al_t) (b : Bool) :
    al_stop (some al) = (true, some { al with is_paused := true }) ∧
    al_start (some al) b = (true, some { al with is_paused := false }) ∧
    (∀ al2, (al_stop (some al)).2 = some al2 ∨ (al_start (some al) b).2 = some al2 →
      al2.source = al.source ∧ al2.buffers = al.buffers ∧ al2.res_buf = al.res_buf ∧
      al2.res_ptr = al.res_ptr ∧ al2.num_buffers = al.num_buffers ∧
      al2.tmpbuf_ptr = al.tmpbuf_ptr ∧ al2.rate = al.rate ∧ al2.format = al.format ∧
      al2.nonblock = al.nonblock) ∧
    al_stop (al_stop (some al)).2 = al_stop (some al) ∧
    al_stop none = (true, none) ∧ al_start none b = (true, none) ∧
    al_stop (al_stop none).2 = al_stop none ∧
    (∀ data, al_alive data = true ↔ ∃ a, data = some a ∧ a.is_paused = false) := by
  refine ⟨rfl, rfl, ?_, rfl, rfl, rfl, rfl, ?_⟩
  · intro al2 h
    rcases h with h | h
    · simp only [al_stop, Option.some.injEq] at h
      subst h; simp
    · simp only [al_start, Option.some.injEq] at h
      subst h; simp
  · intro data
    cases data with
    | none => simp [al_alive]
    | some a => simp [al_alive]

/-- The three cases of `al_get_buffer` in nonblocking mode, on any state and
for any answer of the backend. -/
theorem al_get_buffer_nonblock_cases (st : St) (polls : List Int)
    (hnb : st.al.nonblock = true) :
    (st.al.res_ptr = 0 ∧ polls.headD 0 ≤ 0 →
      al_get_buffer st polls = some (none, st, polls.tail)) ∧
    (st.al.res_ptr ≠ 0 →
      al_get_buffer st polls
        = some (some (st.al.res_buf.getD (st.al.res_ptr - 1) 0),
                { st with al := { st.al with res_ptr := st.al.res_ptr - 1 } }, polls)) ∧
    (st.al.res_ptr = 0 ∧ 0 < polls.headD 0 →
      0 < (al_unqueue_buffers st (polls.headD 0)).2.al.res_ptr ∧
      al_get_buffer st polls
        = some (some ((al_unqueue_buffers st (polls.headD 0)).2.al.res_buf.getD
                  ((al_unqueue_buffers st (polls.headD 0)).2.al.res_ptr - 1) 0),
                { (al_unqueue_buffers st (polls.headD 0)).2 with
                  al := { (al_unqueue_buffers st (polls.headD 0)).2.al with
                          res_ptr := (al_unqueue_buffers st (polls.headD 0)).2.al.res_ptr - 1 } },
                polls.tail)) ∧
    (∀ ob st2 polls2, al_get_buffer st polls = some (ob, st2, polls2) →
      (ob = none ↔ st.al.res_ptr = 0 ∧ polls.headD 0 ≤ 0)) := by
  have hfree := al_get_buffer_free st polls
  have hempty : st.al.res_ptr = 0 ∧ polls.headD 0 ≤ 0 →
      al_get_buffer st polls = some (none, st, polls.tail) := by
    intro ⟨h0, hv⟩
    have hw := al_wait_buffer_nonblock st polls hnb
    rw [al_unqueue_buffers_quiet st hv] at hw
    simp only [al_get_buffer, h0, if_true, hw]
  have hdrain : st.al.res_ptr = 0 ∧ 0 < polls.headD 0 →
      0 < (al_unqueue_buffers st (polls.headD 0)).2.al.res_ptr ∧
      al_get_buffer st polls
        = some (some ((al_unqueue_buffers st (polls.headD 0)).2.al.res_buf.getD
                  ((al_unqueue_buffers st (polls.headD 0)).2.al.res_ptr - 1) 0),
                { (al_unqueue_buffers st (polls.headD 0)).2 with
                  al := { (al_unqueue_buffers st (polls.headD 0)).2.al with
                          res_ptr := (al_unqueue_buffers st (polls.headD 0)).2.al.res_ptr - 1 } },
                polls.tail) := by
    intro ⟨h0, hv⟩
    have hw := al_wait_buffer_nonblock st polls hnb
    generalize polls.headD 0 = v at hv hw ⊢
    have hv2 : ¬ v ≤ 0 := by omega
    have h1 : (al_unqueue_buffers st v).1 = true := by
      simp only [al_unqueue_buffers, hv2, if_false]
    refine ⟨?_, ?_⟩
    · simp only [al_unqueue_buffers, hv2, if_false]
      omega
    · rw [h1] at hw
      simp only [al_get_buffer, h0, if_true, hw, al_pop_buffer]
  refine ⟨hempty, hfree, hdrain, ?_⟩
  intro ob st2 polls2 h
  by_cases h0 : st.al.res_ptr = 0
  · by_cases hv : polls.headD 0 ≤ 0
    · rw [hempty ⟨h0, hv⟩] at h
      simp only [Option.some.injEq, Prod.mk.injEq] at h
      exact ⟨fun _ => ⟨h0, hv⟩, fun _ => h.1.symm⟩
    · rw [(hdrain ⟨h0, by omega⟩).2] at h
      simp only [Option.some.injEq, Prod.mk.injEq] at h
      exact ⟨fun hn => (by rw [← h.1] at hn; cases hn), fun hc => absurd hc.2 hv⟩
  · rw [hfree h0] at h
    simp only [Option.some.injEq, Prod.mk.injEq] at h
    exact ⟨fun hn => (by rw [← h.1] at hn; cases hn), fun hc => absurd hc.1 h0⟩

/-- The drain of `al_get_buffer`: with the free stack empty and the backend
reporting `n > 0` completed buffers, all of them queued, and room for them in
`res_buf`, the call hands out the last completed one and keeps the others. -/
theorem al_get_buffer_drain (st : St) (polls : List Int) (hnb : st.al.nonblock = true)
    (h0 : st.al.res_ptr = 0) (hv : 0 < polls.headD 0)
    (hq : (polls.headD 0).toNat ≤ st.src.queue.length)
    (hroom : (polls.headD 0).toNat ≤ st.al.res_buf.length) :
    ∃ st2, al_get_buffer st polls
        = some (some (st.src.queue.getD ((polls.headD 0).toNat - 1) 0), st2, polls.tail) ∧
      st.src.queue.getD ((polls.headD 0).toNat - 1) 0 ∈ st.src.queue.take (polls.headD 0).toNat ∧
      st2.al.res_ptr = (polls.headD 0).toNat - 1 ∧
      st2.al.res_buf.take st2.al.res_ptr = st.src.queue.take ((polls.headD 0).toNat - 1) ∧
      st2.src.queue = st.src.queue.drop (polls.headD 0).toNat ∧
      st2.al.res_buf.length = st.al.res_buf.length := by
  obtain ⟨-, -, hd, -⟩ := al_get_buffer_nonblock_cases st polls hnb
  obtain ⟨-, hg⟩ := hd ⟨h0, hv⟩
  generalize polls.headD 0 = v at hv hq hroom hg ⊢
  have hv2 : ¬ v ≤ 0 := by omega
  have hn : 0 < v.toNat := by omega
  have hlen : (st.src.queue.take v.toNat).length = v.toNat := by
    simp [List.length_take, hq]
  have htake : (write_at st.al.res_buf 0 (st.src.queue.take v.toNat)).take v.toNat
      = st.src.queue.take v.toNat := by
    have := write_at_take (st.src.queue.take v.toNat) st.al.res_buf 0 (by rw [hlen]; omega)
    rw [hlen] at this
    simpa using this
  have hu : (al_unqueue_buffers st v).2.al.res_buf
      = write_at st.al.res_buf 0 (st.src.queue.take v.toNat) := by
    simp only [al_unqueue_buffers, hv2, if_false, h0]
  have hp : (al_unqueue_buffers st v).2.al.res_ptr = v.toNat := by
    simp only [al_unqueue_buffers, hv2, if_false, h0, Nat.zero_add]
  have hqu : (al_unqueue_buffers st v).2.src.queue = st.src.queue.drop v.toNat := by
    simp only [al_unqueue_buffers, hv2, if_false]
  have hlt : v.toNat - 1 < st.src.queue.length := by omega
  have htop : (write_at st.al.res_buf 0 (st.src.queue.take v.toNat)).getD (v.toNat - 1) 0
      = st.src.queue.getD (v.toNat - 1) 0 := by
    have h1 : ((write_at st.al.res_buf 0 (st.src.queue.take v.toNat)).take v.toNat)[v.toNat - 1]?
        = (st.src.queue.take v.toNat)[v.toNat - 1]? := by rw [htake]
    rw [List.getElem?_take_of_lt (by omega), List.getElem?_take_of_lt (by omega)] at h1
    simp only [List.getD_eq_getElem?_getD, h1]
  rw [hu, hp, htop] at hg
  refine ⟨_, hg, ?_, ?_, ?_, ?_, ?_⟩
  · rw [List.getD_eq_getElem?_getD, List.getElem?_eq_getElem hlt, Option.getD_some]
    apply List.getElem?_mem (n := v.toNat - 1)
    rw [List.getElem?_take_of_lt (by omega), List.getElem?_eq_getElem hlt]
  · simp
  · simp only
    rw [hu]
    have : (write_at st.al.res_buf 0 (st.src.queue.take v.toNat)).take (v.toNat - 1)
        = ((write_at st.al.res_buf 0 (st.src.queue.take v.toNat)).take v.toNat).take
            (v.toNat - 1) := by
      rw [List.take_take, Nat.min_eq_left (by omega)]
    rw [this, htake, List.take_take, Nat.min_eq_left (by omega)]
  · simp only; exact hqu
  · simp only
    rw [hu, write_at_length]

/-- C14.  In nonblocking mode `al_get_buffer` returns `false` exactly when
`res_ptr = 0` and the backend reports no completed buffer, and then leaves
the state as it was.  Otherwise it returns `true`: with `res_ptr ≠ 0` it hands
out the top of the free stack, `res_buf[res_ptr - 1]`, and the free count
drops by one; with `res_ptr = 0` and `n > 0` buffers reported completed (all
of them queued, as the backend promises, and `res_buf` holding them, as it
does in every reachable state) it takes them off the queue, hands out the
last completed one, `queue[n - 1]`, and keeps the other `n - 1` as the free
stack, one less than after the drain. -/
theorem al_get_buffer_nonblocking (st : St) (polls : List Int)
    (hnb : st.al.nonblock = true) :
    (st.al.res_ptr = 0 ∧ polls.headD 0 ≤ 0 →
      al_get_buffer st polls = some (none, st, polls.tail)) ∧
    (st.al.res_ptr ≠ 0 →
      al_get_buffer st polls
        = some (some (st.al.res_buf.getD (st.al.res_ptr - 1) 0),
                { st with al := { st.al with res_ptr := st.al.res_ptr - 1 } }, polls)) ∧
    (st.al.res_ptr = 0 ∧ 0 < polls.headD 0 →
      (polls.headD 0).toNat ≤ st.src.queue.length →
      (polls.headD 0).toNat ≤ st.al.res_buf.length →
      ∃ st2, al_get_buffer st polls
          = some (some (st.src.queue.getD ((polls.headD 0).toNat - 1) 0), st2, polls.tail) ∧
        st.src.queue.getD ((polls.headD 0).toNat - 1) 0 ∈ st.src.queue.take (polls.headD 0).toNat ∧
        st2.al.res_ptr = (polls.headD 0).toNat - 1 ∧
        st2.al.res_buf.take st2.al.res_ptr = st.src.queue.take ((polls.headD 0).toNat - 1) ∧
        st2.src.queue = st.src.queue.drop (polls.headD 0).toNat) ∧
    (Reachable st → st.src.misreported = false → st.al.buffers.Nodup →
      st.al.res_ptr = 0 → st.al.res_buf.length = st.src.queue.length) ∧
    (st.al.res_ptr = 0 ∧ 0 < polls.headD 0 →
      0 < (al_unqueue_buffers st (polls.headD 0)).2.al.res_ptr ∧
      al_get_buffer st polls
        = some (some ((al_unqueue_buffers st (polls.headD 0)).2.al.res_buf.getD
                  ((al_unqueue_buffers st (polls.headD 0)).2.al.res_ptr - 1) 0),
                { (al_unqueue_buffers st (polls.headD 0)).2 with
                  al := { (al_unqueue_buffers st (polls.headD 0)).2.al with
                          res_ptr := (al_unqueue_buffers st (polls.headD 0)).2.al.res_ptr - 1 } },
                polls.tail)) ∧
    (∀ ob st2 polls2, al_get_buffer st polls = some (ob, st2, polls2) →
      (ob = none ↔ st.al.res_ptr = 0 ∧ polls.headD 0 ≤ 0)) := by
  obtain ⟨c1, c2, c3, c4⟩ := al_get_buffer_nonblock_cases st polls hnb
  refine ⟨c1, c2, ?_, ?_, c3, c4⟩
  · intro ⟨h0, hv⟩ hq hroom
    obtain ⟨st2, d1, d2, d3, d4, d5, -⟩ := al_get_buffer_drain st polls hnb h0 hv hq hroom
    exact ⟨st2, d1, d2, d3, d4, d5⟩
  · intro hr hm hnd h0
    have ho := reachable_owned st hr hm hnd
    have hc := ho.count
    simp only [List.length_nil, Nat.add_zero, h0, Nat.zero_add] at hc
    rw [ho.res_len, hc]

/-- Witness of `al_get_buffer_nonblocking`: the two-buffer stream with both
buffers queued (`queue = [2, 1]`), the backend reporting one completed. -/
theorem al_get_buffer_nonblocking_witness :
    (demo_stream_queued.al.res_ptr = 0 ∧ [(1 : Int)].headD 0 ≤ 0 →
      al_get_buffer demo_stream_queued [1] = some (none, demo_stream_queued, [(1 : Int)].tail)) ∧
    (demo_stream_queued.al.res_ptr ≠ 0 →
      al_get_buffer demo_stream_queued [1]
        = some (some (demo_stream_queued.al.res_buf.getD (demo_stream_queued.al.res_ptr - 1) 0),
                { demo_stream_queued with al := { demo_stream_queued.al with res_ptr := demo_stream_queued.al.res_ptr - 1 } }, [1])) ∧
    (demo_stream_queued.al.res_ptr = 0 ∧ 0 < [(1 : Int)].headD 0 →
      ([(1 : Int)].headD 0).toNat ≤ demo_stream_queued.src.queue.length →
      ([(1 : Int)].headD 0).toNat ≤ demo_stream_queued.al.res_buf.length →
      ∃ st2, al_get_buffer demo_stream_queued [1]
          = some (some (demo_stream_queued.src.queue.getD (([(1 : Int)].headD 0).toNat - 1) 0), st2, [(1 : Int)].tail) ∧
        demo_stream_queued.src.queue.getD (([(1 : Int)].headD 0).toNat - 1) 0 ∈ demo_stream_queued.src.queue.take ([(1 : Int)].headD 0).toNat ∧
        st2.al.res_ptr = ([(1 : Int)].headD 0).toNat - 1 ∧
        st2.al.res_buf.take st2.al.res_ptr = demo_stream_queued.src.queue.take (([(1 : Int)].headD 0).toNat - 1) ∧
        st2.src.queue = demo_stream_queued.src.queue.drop ([(1 : Int)].headD 0).toNat) ∧
    (Reachable demo_stream_queued → demo_stream_queued.src.misreported = false → demo_stream_queued.al.buffers.Nodup →
      demo_stream_queued.al.res_ptr = 0 → demo_stream_queued.al.res_buf.length = demo_stream_queued.src.queue.length) ∧
    (demo_stream_queued.al.res_ptr = 0 ∧ 0 < [(1 : Int)].headD 0 →
      0 < (al_unqueue_buffers demo_stream_queued ([(1 : Int)].headD 0)).2.al.res_ptr ∧
      al_get_buffer demo_stream_queued [1]
        = some (some ((al_unqueue_buffers demo_stream_queued ([(1 : Int)].headD 0)).2.al.res_buf.getD
                  ((al_unqueue_buffers demo_stream_queued ([(1 : Int)].headD 0)).2.al.res_ptr - 1) 0),
                { (al_unqueue_buffers demo_stream_queued ([(1 : Int)].headD 0)).2 with
                  al := { (al_unqueue_buffers demo_stream_queued ([(1 : Int)].headD 0)).2.al with
                          res_ptr := (al_unqueue_buffers demo_stream_queued ([(1 : Int)].headD 0)).2.al.res_ptr - 1 } },
                [(1 : Int)].tail)) ∧
    (∀ ob st2 polls2, al_get_buffer demo_stream_queued [1] = some (ob, st2, polls2) →
      (ob = none ↔ demo_stream_queued.al.res_ptr = 0 ∧ [(1 : Int)].headD 0 ≤ 0)) :=
  al_get_buffer_nonblocking demo_stream_queued [1] (by decide)

/-- C15 (the code breaks it).  The claim: every chunk upload of `al_write`
reads inside the caller's input.  On a freshly opened stream a write of 512
bytes is accepted (`tmpbuf_ptr = 512`); the next write of 512 bytes fills the
accumulator index and uploads 1024 bytes from the start of its 512-byte input:
the read leaves the input (`none`). -/
theorem al_write_reads_past_input :
    ((al_init demo_env 48000 0).bind fun st0 =>
      (al_write st0 [] (List.replicate 512 5)).bind fun r1 =>
        (al_write r1.2.1 [] (List.replicate 512 6)).map fun r2 =>
          (r1.1, r1.2.1.al.tmpbuf_ptr, r2.1, r2.2.1.src.submitted))
      = some (512, 512, 512, [none]) ∧
    read_chunk (List.replicate 512 6) 0 = none := by
  decide!

end OpenAL

/-! ## CoreAudio capture ring: properties -/

namespace CoreAudio

theorem succ_mod_lt {a n : Nat} (h : a < n) :
    (a + 1) % n = if a + 1 = n then 0 else a + 1 := by
  split
  · rename_i h1; rw [h1, Nat.mod_self]
  · exact Nat.mod_eq_of_lt (by omega)

theorem add_mod_lt {a i n : Nat} (ha : a < n) (hi : i < n) :
    (a + i) % n = if a + i < n then a + i else a + i - n := by
  split
  · rename_i h1; exact Nat.mod_eq_of_lt h1
  · rename_i h1
    rw [Nat.mod_eq_sub_mod (by omega)]
    exact Nat.mod_eq_of_lt (by omega)

theorem fifo_avail_lt (f : fifo_buffer_t) (h : fifo_wf f) : FIFO_READ_AVAIL f < f.size := by
  have h1 := h.first_lt
  have h2 := h.end_lt
  unfold FIFO_READ_AVAIL
  split <;> omega

theorem fifo_push (f : fifo_buffer_t) (b : Nat) (h : fifo_wf f)
    (hfree : 1 ≤ FIFO_WRITE_AVAIL f) :
    fifo_wf (fifo_put f b) ∧
    FIFO_READ_AVAIL (fifo_put f b)
      = FIFO_READ_AVAIL f + 1 ∧
    fifo_contents (fifo_put f b)
      = fifo_contents f ++ [b] := by
  have h1 := h.first_lt
  have h2 := h.end_lt
  have h3 := h.len
  have hA : FIFO_READ_AVAIL (fifo_put f b) = FIFO_READ_AVAIL f + 1 := by
    unfold FIFO_WRITE_AVAIL at hfree
    unfold FIFO_READ_AVAIL fifo_put at *
    simp only [succ_mod_lt h2]
    split_ifs at hfree ⊢ <;> omega
  refine ⟨⟨by simp [fifo_put, h3], h1, Nat.mod_lt _ (by omega)⟩, hA, ?_⟩
  unfold fifo_contents
  rw [hA, List.range_succ, List.map_append]
  simp only [fifo_put]
  congr 1
  · apply List.map_congr_left
    intro i hi
    simp only [List.mem_range] at hi
    have hlt := fifo_avail_lt f h
    have hne : f.end_ ≠ (f.first + i) % f.size := by
      rw [add_mod_lt h1 (by omega)]
      unfold FIFO_READ_AVAIL at hi
      split_ifs at hi ⊢ <;> omega
    simp [List.getElem?_set_ne hne]
  · have hlt := fifo_avail_lt f h
    have heq : (f.first + FIFO_READ_AVAIL f) % f.size = f.end_ := by
      rw [add_mod_lt h1 hlt]
      unfold FIFO_READ_AVAIL at hlt ⊢
      split_ifs at hlt ⊢ <;> omega
    simp [heq, List.getElem?_set_self (show f.end_ < f.buffer.length by omega)]

theorem fifo_pop (f : fifo_buffer_t) (h : fifo_wf f) (hav : 0 < FIFO_READ_AVAIL f) :
    fifo_wf (fifo_skip f) ∧
    FIFO_READ_AVAIL (fifo_skip f) = FIFO_READ_AVAIL f - 1 ∧
    fifo_contents f
      = f.buffer.getD f.first 0 :: fifo_contents (fifo_skip f) := by
  have h1 := h.first_lt
  have h2 := h.end_lt
  have hA : FIFO_READ_AVAIL (fifo_skip f)
      = FIFO_READ_AVAIL f - 1 := by
    unfold FIFO_READ_AVAIL fifo_skip at *
    simp only [succ_mod_lt h1]
    split_ifs at hav ⊢ <;> omega
  refine ⟨⟨h.len, Nat.mod_lt _ (by omega), h2⟩, hA, ?_⟩
  unfold fifo_contents
  rw [hA]
  simp only [fifo_skip]
  obtain ⟨k, hk⟩ : ∃ k, FIFO_READ_AVAIL f = k + 1 := ⟨FIFO_READ_AVAIL f - 1, by omega⟩
  rw [hk, List.range_succ_eq_map]
  simp only [List.map_cons, List.map_map, Nat.add_zero, Nat.add_sub_cancel]
  rw [Nat.mod_eq_of_lt h1]
  congr 1
  apply List.map_congr_left
  intro i _
  simp only [Function.comp, Nat.succ_eq_add_one]
  rw [Nat.mod_add_mod]
  congr 2
  omega

theorem fifo_contents_length (f : fifo_buffer_t) :
    (fifo_contents f).length = FIFO_READ_AVAIL f := by
  simp [fifo_contents]

theorem fifo_write_spec (data : List Nat) : ∀ (f : fifo_buffer_t), fifo_wf f →
    data.length ≤ FIFO_WRITE_AVAIL f →
    fifo_wf (fifo_write f data) ∧
    (fifo_write f data).size = f.size ∧
    FIFO_READ_AVAIL (fifo_write f data) = FIFO_READ_AVAIL f + data.length ∧
    fifo_contents (fifo_write f data) = fifo_contents f ++ data := by
  induction data with
  | nil => intro f h _; simp [fifo_write, h]
  | cons b bs ih =>
    intro f h hlen
    simp only [List.length_cons] at hlen
    obtain ⟨p1, p2, p3⟩ := fifo_push f b h (by omega)
    have hsize : (fifo_put f b).size = f.size := rfl
    obtain ⟨i1, i2, i3, i4⟩ := ih (fifo_put f b) p1 (by
      unfold FIFO_WRITE_AVAIL at hlen ⊢
      rw [p2, hsize]; omega)
    refine ⟨i1, i2.trans hsize, ?_, ?_⟩
    · simp only [fifo_write, List.length_cons]; rw [i3, p2]; omega
    · simp only [fifo_write]; rw [i4, p3]; simp

theorem fifo_read_spec (n : Nat) : ∀ (f : fifo_buffer_t), fifo_wf f →
    n ≤ FIFO_READ_AVAIL f →
    fifo_wf (fifo_read f n).2 ∧
    (fifo_read f n).2.size = f.size ∧
    FIFO_READ_AVAIL (fifo_read f n).2 = FIFO_READ_AVAIL f - n ∧
    (fifo_read f n).1 = (fifo_contents f).take n ∧
    fifo_contents (fifo_read f n).2 = (fifo_contents f).drop n := by
  induction n with
  | zero => intro f h _; simp [fifo_read, h]
  | succ n ih =>
    intro f h hn
    obtain ⟨p1, p2, p3⟩ := fifo_pop f h (by omega)
    have hsize : (fifo_skip f).size = f.size := rfl
    obtain ⟨i1, i2, i3, i4, i5⟩ := ih (fifo_skip f) p1 (by rw [p2]; omega)
    refine ⟨i1, i2.trans hsize, ?_, ?_, ?_⟩
    · simp only [fifo_read]; rw [i3, p2]; omega
    · simp only [fifo_read]; rw [i4, p3]; simp
    · simp only [fifo_read]; rw [i5, p3]; simp

theorem fifo_new_wf (size : Nat) : fifo_wf (fifo_new size) :=
  ⟨by simp [fifo_new], by simp [fifo_new], by simp [fifo_new]⟩

theorem to_int_small {n : Nat} (h : n < 2147483648) : to_int n = (n : Int) := by
  unfold to_int
  have : n % 4294967296 = n := Nat.mod_eq_of_lt (by omega)
  rw [this, if_pos h]

theorem take_min_length (l : List Nat) (n : Nat) : l.take (min n l.length) = l.take n := by
  rcases Nat.le_total n l.length with h | h
  · rw [Nat.min_eq_left h]
  · rw [Nat.min_eq_right h, List.take_of_length_le h, List.take_of_length_le (Nat.le_refl _)]

theorem drop_min_length (l : List Nat) (n : Nat) : l.drop (min n l.length) = l.drop n := by
  rcases Nat.le_total n l.length with h | h
  · rw [Nat.min_eq_left h]
  · rw [Nat.min_eq_right h, List.drop_of_length_le h, List.drop_of_length_le (Nat.le_refl _)]

theorem slock_lock_free (l : slock_t) (h : l.held = false) :
    slock_lock l = lock_outcome.granted { l with held := true, acquires := l.acquires + 1 } := by
  simp [slock_lock, h]

theorem slock_lock_held (l : slock_t) (h : l.held = true) :
    slock_lock l
      = lock_outcome.blocked { l with acquires := l.acquires + 1, reacquired := true } := by
  simp [slock_lock, h]

/-- What a nonblocking `coreaudio_microphone_read` that finds the region free
does before it stops in its second `slock_lock`. -/
theorem nonblocking_read_ring (fuel : Nat) (mic : ca_mic_t) (sz : Nat)
    (hwf : fifo_wf mic.buffer) (hfree : mic.lock.held = false) :
    ∃ r, coreaudio_microphone_read fuel { nonblock := true } mic sz = some (outcome.blocked r) ∧
      r.ret = to_int (min sz (FIFO_READ_AVAIL mic.buffer)) ∧
      r.out = (fifo_contents mic.buffer).take (min sz (FIFO_READ_AVAIL mic.buffer)) ∧
      fifo_contents r.mic.buffer
        = (fifo_contents mic.buffer).drop (min sz (FIFO_READ_AVAIL mic.buffer)) ∧
      FIFO_READ_AVAIL r.mic.buffer
        = FIFO_READ_AVAIL mic.buffer - min sz (FIFO_READ_AVAIL mic.buffer) ∧
      fifo_wf r.mic.buffer ∧ r.mic.buffer.size = mic.buffer.size ∧
      (FIFO_READ_AVAIL mic.buffer = 0 → r.mic.buffer = mic.buffer) := by
  have hamt : (if FIFO_READ_AVAIL mic.buffer > sz then sz else FIFO_READ_AVAIL mic.buffer)
      = min sz (FIFO_READ_AVAIL mic.buffer) := by
    rw [Nat.min_def]; split_ifs <;> omega
  simp only [coreaudio_microphone_read, slock_lock_free mic.lock hfree, if_true, hamt]
  by_cases hpos : min sz (FIFO_READ_AVAIL mic.buffer) > 0
  · obtain ⟨r1, r2, r3, r4, r5⟩ :=
      fifo_read_spec (min sz (FIFO_READ_AVAIL mic.buffer)) mic.buffer hwf (Nat.min_le_right _ _)
    simp only [hpos, if_true]
    rw [slock_lock_held _ rfl]
    exact ⟨_, rfl, rfl, r4, r5, r3, r1, r2, fun h0 => by rw [h0] at hpos; simp at hpos⟩
  · have hz : min sz (FIFO_READ_AVAIL mic.buffer) = 0 := by omega
    simp only [hpos, if_false]
    rw [slock_lock_held _ rfl]
    exact ⟨_, rfl, rfl, by simp [hz], by simp [hz], by simp [hz], hwf, rfl, fun _ => rfl⟩

/-- A nonblocking `coreaudio_microphone_read` stops in `slock_lock`, whatever
the record and the size asked. -/
theorem nonblocking_read_blocked (fuel : Nat) (mic : ca_mic_t) (sz : Nat) :
    ∃ r, coreaudio_microphone_read fuel { nonblock := true } mic sz = some (outcome.blocked r) ∧
      r.mic.lock.held = true ∧ r.mic.lock.reacquired = true ∧
      r.mic.lock.releases = mic.lock.releases ∧
      (mic.lock.held = false → r.mic.lock.acquires = mic.lock.acquires + 2) ∧
      (mic.lock.held = true → r.mic.lock.acquires = mic.lock.acquires + 1 ∧ r.out = [] ∧
        r.mic.buffer = mic.buffer) := by
  cases hh : mic.lock.held with
  | true =>
    simp only [coreaudio_microphone_read, slock_lock_held mic.lock hh]
    exact ⟨_, rfl, hh, rfl, rfl, by simp, fun _ => ⟨rfl, rfl, rfl⟩⟩
  | false =>
    simp only [coreaudio_microphone_read, slock_lock_free mic.lock hh, if_true]
    by_cases h : (if FIFO_READ_AVAIL mic.buffer > sz then sz else FIFO_READ_AVAIL mic.buffer) > 0
    · simp only [h, if_true]
      rw [slock_lock_held _ rfl]
      exact ⟨_, rfl, rfl, rfl, rfl, fun _ => rfl, by simp⟩
    · simp only [h, if_false]
      rw [slock_lock_held _ rfl]
      exact ⟨_, rfl, rfl, rfl, rfl, fun _ => rfl, by simp⟩

theorem callback_loop_spin (fuel : Nat) : ∀ (f : fifo_buffer_t) (read : Nat) (data : List Nat),
    FIFO_WRITE_AVAIL f < data.length → read < data.length →
    callback_loop fuel f read data = none := by
  induction fuel with
  | zero => intro f read data _ _; rfl
  | succ fuel ih =>
    intro f read data h1 h2
    rw [callback_loop]
    simp only [h2, if_true, ge_iff_le, Nat.not_le.mpr h1, if_false]
    exact ih f read data h1 h2

theorem callback_loop_spec (fuel : Nat) (f : fifo_buffer_t) (data : List Nat) :
    (∀ f2, callback_loop fuel f 0 data = some f2 →
      (data = [] ∧ f2 = f) ∨ (data.length ≤ FIFO_WRITE_AVAIL f ∧ f2 = fifo_write f data)) ∧
    (data.length ≤ FIFO_WRITE_AVAIL f → 2 ≤ fuel →
      callback_loop fuel f 0 data = some (fifo_write f data)) := by
  constructor
  · intro f2 h
    cases fuel with
    | zero => simp [callback_loop] at h
    | succ fuel =>
      rw [callback_loop] at h
      by_cases hd : 0 < data.length
      · simp only [hd, if_true] at h
        by_cases hfit : FIFO_WRITE_AVAIL f ≥ data.length
        · simp only [hfit, if_true] at h
          cases fuel with
          | zero => simp [callback_loop] at h
          | succ fuel =>
            rw [callback_loop] at h
            simp only [Nat.zero_add, Nat.lt_irrefl, if_false, Option.some.injEq] at h
            exact Or.inr ⟨hfit, h.symm⟩
        · simp only [hfit, if_false] at h
          rw [callback_loop_spin fuel f 0 data (by omega) hd] at h
          simp at h
      · simp only [hd, if_false, Option.some.injEq] at h
        exact Or.inl ⟨List.length_eq_zero.mp (by omega), h.symm⟩
  · intro hfit hfuel
    obtain ⟨k, rfl⟩ : ∃ k, fuel = k + 2 := ⟨fuel - 2, by omega⟩
    rw [callback_loop]
    by_cases hd : 0 < data.length
    · simp only [hd, if_true, ge_iff_le, hfit]
      rw [callback_loop]
      simp
    · have : data = [] := List.length_eq_zero.mp (by omega)
      subst this
      simp [fifo_write]

/-- What a returning `AudioInputCallback` with packets has done to the ring. -/
theorem callback_ring (fuel : Nat) (mic : ca_mic_t) (inNumPackets : Nat) (data : List Nat)
    (hwf : fifo_wf mic.buffer) (hpk : 0 < inNumPackets) (mic2 : ca_mic_t)
    (h : AudioInputCallback fuel mic inNumPackets data = some (outcome.returned mic2)) :
    (data ≠ [] → data.length ≤ FIFO_WRITE_AVAIL mic.buffer) ∧
    mic2.buffer = fifo_write mic.buffer data ∧
    fifo_contents mic2.buffer = fifo_contents mic.buffer ++ data ∧
    fifo_wf mic2.buffer ∧ mic2.buffer.size = mic.buffer.size ∧
    mic2.lock.held = false := by
  simp only [AudioInputCallback, hpk, if_true] at h
  cases hh : mic.lock.held with
  | true =>
    rw [slock_lock_held mic.lock hh] at h
    simp at h
  | false =>
    rw [slock_lock_free mic.lock hh] at h
    simp only at h
    split at h
    · simp at h
    · rename_i f hl
      simp only [Option.some.injEq, outcome.returned.injEq] at h
      subst h
      rcases (callback_loop_spec fuel mic.buffer data).1 f hl with ⟨h1, h2⟩ | ⟨h1, h2⟩
      · subst h1; subst h2
        exact ⟨fun hne => absurd rfl hne, rfl, by simp, hwf, rfl, rfl⟩
      · subst h2
        obtain ⟨w1, w2, -, w4⟩ := fifo_write_spec data mic.buffer hwf h1
        exact ⟨fun _ => h1, rfl, w4, w1, w2, rfl⟩

theorem callback_returns (fuel : Nat) (mic : ca_mic_t) (inNumPackets : Nat) (data : List Nat)
    (hfit : data.length ≤ FIFO_WRITE_AVAIL mic.buffer) (hfuel : 2 ≤ fuel)
    (hfree : mic.lock.held = false) :
    ∃ mic2, AudioInputCallback fuel mic inNumPackets data = some (outcome.returned mic2) := by
  unfold AudioInputCallback
  split
  · rw [slock_lock_free mic.lock hfree, (callback_loop_spec fuel mic.buffer data).2 hfit hfuel]
    exact ⟨_, rfl⟩
  · exact ⟨_, rfl⟩

theorem callback_zero_packets (fuel : Nat) (mic : ca_mic_t) (data : List Nat) :
    AudioInputCallback fuel mic 0 data
      = some (outcome.returned { mic with enqueued := mic.enqueued + 1 }) := by
  simp [AudioInputCallback]

theorem callback_blocked_ring (fuel : Nat) (mic : ca_mic_t) (inNumPackets : Nat)
    (data : List Nat) (mic2 : ca_mic_t)
    (h : AudioInputCallback fuel mic inNumPackets data = some (outcome.blocked mic2)) :
    mic2.buffer = mic.buffer := by
  unfold AudioInputCallback at h
  split at h
  · cases hh : mic.lock.held with
    | true =>
      rw [slock_lock_held mic.lock hh] at h
      simp only [Option.some.injEq, outcome.blocked.injEq] at h
      rw [← h]
    | false =>
      rw [slock_lock_free mic.lock hh] at h
      simp only at h
      split at h <;> simp at h
  · simp at h

theorem run_callbacks_cons (fuel : Nat) (mic mic1 : ca_mic_t) (c : Nat × List Nat)
    (cbs : List (Nat × List Nat)) (h : run_callbacks fuel mic (c :: cbs) = some mic1) :
    ∃ mic0, AudioInputCallback fuel mic c.1 c.2 = some (outcome.returned mic0) ∧
      run_callbacks fuel mic0 cbs = some mic1 := by
  simp only [run_callbacks] at h
  split at h
  · rename_i mic0 h0
    exact ⟨mic0, h0, h⟩
  · simp at h

theorem run_callbacks_spec (fuel : Nat) (cbs : List (Nat × List Nat)) :
    ∀ (mic mic1 : ca_mic_t), fifo_wf mic.buffer → (∀ c ∈ cbs, 0 < c.1) →
    run_callbacks fuel mic cbs = some mic1 →
    fifo_contents mic1.buffer = fifo_contents mic.buffer ++ (cbs.map Prod.snd).flatten ∧
    fifo_wf mic1.buffer ∧ mic1.buffer.size = mic.buffer.size ∧
    (cbs ≠ [] → mic1.lock.held = false) := by
  induction cbs with
  | nil =>
    intro mic mic1 h _ hr
    simp only [run_callbacks, Option.some.injEq] at hr
    subst hr
    exact ⟨by simp, h, rfl, fun hne => absurd rfl hne⟩
  | cons c cbs ih =>
    intro mic mic1 hwf hpk hr
    obtain ⟨mic0, h0, h1⟩ := run_callbacks_cons fuel mic mic1 c cbs hr
    obtain ⟨-, -, r3, r4, r5, r6⟩ :=
      callback_ring fuel mic c.1 c.2 hwf (hpk c (List.mem_cons_self _ _)) mic0 h0
    obtain ⟨i1, i2, i3, i4⟩ := ih mic0 mic1 r4
      (fun c' hc' => hpk c' (List.mem_cons_of_mem _ hc')) h1
    refine ⟨?_, i2, i3.trans r5, fun _ => ?_⟩
    · rw [i1, r3]; simp
    · cases cbs with
      | nil =>
        simp only [run_callbacks, Option.some.injEq] at h1
        rw [← h1]; exact r6
      | cons c2 cbs2 => exact i4 (by simp)

theorem run_callbacks_returns (fuel : Nat) (hfuel : 2 ≤ fuel) (cbs : List (Nat × List Nat)) :
    ∀ (mic : ca_mic_t), fifo_wf mic.buffer → mic.lock.held = false → (∀ c ∈ cbs, 0 < c.1) →
    (cbs.map Prod.snd).flatten.length ≤ FIFO_WRITE_AVAIL mic.buffer →
    ∃ mic1, run_callbacks fuel mic cbs = some mic1 := by
  induction cbs with
  | nil => intro mic _ _ _ _; exact ⟨mic, rfl⟩
  | cons c cbs ih =>
    intro mic hwf hfree hpk hfit
    simp only [List.map_cons, List.flatten_cons, List.length_append] at hfit
    obtain ⟨mic0, h0⟩ := callback_returns fuel mic c.1 c.2 (by omega) hfuel hfree
    obtain ⟨-, -, r3, r4, r5, r6⟩ :=
      callback_ring fuel mic c.1 c.2 hwf (hpk c (List.mem_cons_self _ _)) mic0 h0
    have havail : FIFO_WRITE_AVAIL mic0.buffer = FIFO_WRITE_AVAIL mic.buffer - c.2.length := by
      have e1 := fifo_contents_length mic0.buffer
      have e2 := fifo_contents_length mic.buffer
      rw [r3, List.length_append] at e1
      unfold FIFO_WRITE_AVAIL
      rw [r5]; omega
    obtain ⟨mic1, i1⟩ := ih mic0 r4 r6
      (fun c' hc' => hpk c' (List.mem_cons_of_mem _ hc')) (by rw [havail]; omega)
    exact ⟨mic1, by simp only [run_callbacks, h0, i1]⟩

theorem read_loop_starved (fuel : Nat) : ∀ (f : fifo_buffer_t) (read sz : Nat) (out : List Nat),
    fifo_wf f → read + FIFO_READ_AVAIL f < sz → read_loop fuel f read sz out = none := by
  induction fuel with
  | zero => intro f read sz out _ _; rfl
  | succ fuel ih =>
    intro f read sz out hwf h
    rw [read_loop]
    have h1 : read < sz := by omega
    simp only [h1, if_true]
    by_cases hav : FIFO_READ_AVAIL f = 0
    · simp only [hav, ne_eq, not_true_eq_false, if_false]
      exact ih f read sz out hwf h
    · simp only [ne_eq, hav, not_false_eq_true, if_true]
      have hmin : min (sz - read) (FIFO_READ_AVAIL f) = FIFO_READ_AVAIL f :=
        Nat.min_eq_right (by omega)
      rw [hmin]
      obtain ⟨r1, -, r3, -, -⟩ := fifo_read_spec (FIFO_READ_AVAIL f) f hwf (Nat.le_refl _)
      exact ih _ _ _ _ r1 (by rw [r3]; omega)

theorem demo_mic_wf : fifo_wf demo_mic.buffer := ⟨by decide, by decide, by decide⟩


/-- What a nonblocking `coreaudio_microphone_read` has copied out of a ring
that is empty unless the region is free, whether or not it returns. -/
theorem nonblocking_read_copies (mic : ca_mic_t) (sz : Nat) (hwf : fifo_wf mic.buffer)
    (h : mic.lock.held = true → FIFO_READ_AVAIL mic.buffer = 0) :
    ∃ o, coreaudio_microphone_read 0 { nonblock := true } mic sz = some o ∧
      o.val.out = (fifo_contents mic.buffer).take sz ∧
      fifo_contents o.val.mic.buffer = (fifo_contents mic.buffer).drop sz ∧
      FIFO_READ_AVAIL o.val.mic.buffer = (fifo_contents mic.buffer).length - sz := by
  cases hh : mic.lock.held with
  | true =>
    obtain ⟨r, q1, -, -, -, -, q6⟩ := nonblocking_read_blocked 0 mic sz
    obtain ⟨-, q7, q8⟩ := q6 hh
    have hc : fifo_contents mic.buffer = [] :=
      List.length_eq_zero.mp (by rw [fifo_contents_length, h hh])
    refine ⟨_, q1, ?_, ?_, ?_⟩
    · simp [outcome.val, q7, hc]
    · simp [outcome.val, q8, hc]
    · simp [outcome.val, q8, hc, h hh]
  | false =>
    obtain ⟨r, q1, -, q3, q4, -, -, -, -⟩ := nonblocking_read_ring 0 mic sz hwf hh
    rw [← fifo_contents_length, take_min_length] at q3
    rw [← fifo_contents_length, drop_min_length] at q4
    refine ⟨_, q1, q3, q4, ?_⟩
    rw [← fifo_contents_length]
    simp only [outcome.val]
    rw [q4, List.length_drop]

/-- C6 (as stated it fails).  A callback with `inNumPackets = 0` whose buffer
holds the bytes `1, 2` returns and leaves the fresh ring of capacity 8 empty;
the nonblocking read of 2 bytes that follows copies nothing, and it does not
return: it waits in its second `slock_lock`. -/
theorem zero_packet_bytes_never_read :
    AudioInputCallback 2 (fresh_mic 8) 0 [1, 2]
      = some (outcome.returned { fresh_mic 8 with enqueued := 1 }) ∧
    FIFO_READ_AVAIL ({ fresh_mic 8 with enqueued := 1 } : ca_mic_t).buffer = 0 ∧
    (coreaudio_microphone_read 0 { nonblock := true } { fresh_mic 8 with enqueued := 1 } 2).map
        (fun o => (o.val.ret, o.val.out)) = some (0, []) ∧
    (∀ r, coreaudio_microphone_read 0 { nonblock := true } { fresh_mic 8 with enqueued := 1 } 2
        ≠ some (outcome.returned r)) := by
  refine ⟨by decide, by decide, by decide, ?_⟩
  intro r h
  obtain ⟨r2, h2, -⟩ :=
    nonblocking_read_blocked 0 ({ fresh_mic 8 with enqueued := 1 } : ca_mic_t) 2
  rw [h2] at h
  simp at h

/-- C6 (amended).  Starting from an empty ring, callbacks with
`inNumPackets > 0` whose bytes together fit the free space all return when
the region is free, and once they have returned the unread contents of the
ring are their bytes in order, none lost or repeated.  The nonblocking read
that follows copies to the caller exactly the first `sz` of these bytes (all
of them when fewer) and takes them off the ring; in particular after a single
callback of `n` bytes a read of `n` bytes copies all of them and leaves 0 bytes
available.  Whether that read returns is not stated here. -/
theorem capture_ring_fifo_order (fuel : Nat) (mic : ca_mic_t)
    (cbs : List (Nat × List Nat)) (hwf : fifo_wf mic.buffer)
    (hempty : FIFO_READ_AVAIL mic.buffer = 0) (hpk : ∀ c ∈ cbs, 0 < c.1) :
    (2 ≤ fuel → mic.lock.held = false →
      (cbs.map Prod.snd).flatten.length ≤ FIFO_WRITE_AVAIL mic.buffer →
      ∃ mic1, run_callbacks fuel mic cbs = some mic1) ∧
    (∀ mic1, run_callbacks fuel mic cbs = some mic1 →
      fifo_contents mic1.buffer = (cbs.map Prod.snd).flatten ∧
      (∀ sz, ∃ o, coreaudio_microphone_read 0 { nonblock := true } mic1 sz = some o ∧
        o.val.out = ((cbs.map Prod.snd).flatten).take sz ∧
        fifo_contents o.val.mic.buffer = ((cbs.map Prod.snd).flatten).drop sz ∧
        FIFO_READ_AVAIL o.val.mic.buffer = (cbs.map Prod.snd).flatten.length - sz) ∧
      (∀ p d, cbs = [(p, d)] →
        ∃ o, coreaudio_microphone_read 0 { nonblock := true } mic1 d.length = some o ∧
          o.val.out = d ∧ FIFO_READ_AVAIL o.val.mic.buffer = 0)) := by
  have hc0 : fifo_contents mic.buffer = [] :=
    List.length_eq_zero.mp (by rw [fifo_contents_length, hempty])
  refine ⟨fun hfuel hfree hfit => run_callbacks_returns fuel hfuel cbs mic hwf hfree hpk hfit,
    fun mic1 hr => ?_⟩
  obtain ⟨h2, h3, -, h5⟩ := run_callbacks_spec fuel cbs mic mic1 hwf hpk hr
  rw [hc0, List.nil_append] at h2
  have hheld : mic1.lock.held = true → FIFO_READ_AVAIL mic1.buffer = 0 := by
    intro hh
    cases cbs with
    | nil =>
      simp only [run_callbacks, Option.some.injEq] at hr
      rw [← hr]; exact hempty
    | cons c cbs =>
      rw [h5 (by simp)] at hh
      cases hh
  have hread : ∀ sz, ∃ o, coreaudio_microphone_read 0 { nonblock := true } mic1 sz = some o ∧
      o.val.out = ((cbs.map Prod.snd).flatten).take sz ∧
      fifo_contents o.val.mic.buffer = ((cbs.map Prod.snd).flatten).drop sz ∧
      FIFO_READ_AVAIL o.val.mic.buffer = (cbs.map Prod.snd).flatten.length - sz := by
    intro sz
    obtain ⟨o, q1, q2, q3, q4⟩ := nonblocking_read_copies mic1 sz h3 hheld
    rw [h2] at q2 q3 q4
    exact ⟨o, q1, q2, q3, q4⟩
  refine ⟨h2, hread, ?_⟩
  intro p d hcbs
  subst hcbs
  obtain ⟨o, q1, q2, -, q4⟩ := hread d.length
  simp only [List.map_cons, List.map_nil, List.flatten_cons, List.flatten_nil,
    List.append_nil, List.take_length, Nat.sub_self] at q2 q4
  exact ⟨o, q1, q2, q4⟩

/-- Witness of `capture_ring_fifo_order`: three callbacks delivering
`[1, 2, 3]`, `[4, 5]`, `[6]` into a fresh ring of capacity 8. -/
theorem capture_ring_fifo_order_witness :
    (2 ≤ 2 → (fresh_mic 8).lock.held = false →
      ([(1, [1, 2, 3]), (1, [4, 5]), (1, [6])].map Prod.snd).flatten.length
        ≤ FIFO_WRITE_AVAIL (fresh_mic 8).buffer →
      ∃ mic1, run_callbacks 2 (fresh_mic 8) [(1, [1, 2, 3]), (1, [4, 5]), (1, [6])]
        = some mic1) ∧
    (∀ mic1, run_callbacks 2 (fresh_mic 8) [(1, [1, 2, 3]), (1, [4, 5]), (1, [6])] = some mic1 →
      fifo_contents mic1.buffer
        = ([(1, [1, 2, 3]), (1, [4, 5]), (1, [6])].map Prod.snd).flatten ∧
      (∀ sz, ∃ o, coreaudio_microphone_read 0 { nonblock := true } mic1 sz = some o ∧
        o.val.out = (([(1, [1, 2, 3]), (1, [4, 5]), (1, [6])].map Prod.snd).flatten).take sz ∧
        fifo_contents o.val.mic.buffer
          = (([(1, [1, 2, 3]), (1, [4, 5]), (1, [6])].map Prod.snd).flatten).drop sz ∧
        FIFO_READ_AVAIL o.val.mic.buffer
          = ([(1, [1, 2, 3]), (1, [4, 5]), (1, [6])].map Prod.snd).flatten.length - sz) ∧
      (∀ p d, [(1, [1, 2, 3]), (1, [4, 5]), (1, [6])] = [(p, d)] →
        ∃ o, coreaudio_microphone_read 0 { nonblock := true } mic1 d.length = some o ∧
          o.val.out = d ∧ FIFO_READ_AVAIL o.val.mic.buffer = 0)) :=
  capture_ring_fifo_order 2 (fresh_mic 8)
    [(1, [1, 2, 3]), (1, [4, 5]), (1, [6])] (fifo_new_wf 8) (by decide) (by decide)

/-- C7 (the code breaks it).  The claim: a nonblocking
`coreaudio_microphone_read` returns `min sz ringAvailable`.  No nonblocking
call returns: each one ends in `slock_lock` on a region that is held (its own
first acquisition, when the region was free).  On the ring holding
`3, 7, 8, 9` a read of 3 bytes copies `3, 7, 8`, has the count 3 ready, and
waits there. -/
theorem nonblocking_read_never_returns (fuel : Nat) (mic : ca_mic_t) (sz : Nat) :
    (∃ r, coreaudio_microphone_read fuel { nonblock := true } mic sz
      = some (outcome.blocked r)) ∧
    (∀ r, coreaudio_microphone_read fuel { nonblock := true } mic sz
      ≠ some (outcome.returned r)) ∧
    coreaudio_microphone_read 0 { nonblock := true } demo_mic 3
      = some (outcome.blocked
          { ret := 3, out := [3, 7, 8]
            mic := { demo_mic with
                     buffer := { demo_mic.buffer with first := 0 }
                     signals := 3
                     lock := { held := true, acquires := 4, releases := 2,
                               reacquired := true } } }) := by
  obtain ⟨r, h, -⟩ := nonblocking_read_blocked fuel mic sz
  refine ⟨⟨r, h⟩, ?_, by decide⟩
  intro r2 h2
  rw [h] at h2
  simp at h2

/-- C8 (as stated it fails).  A callback with `inNumPackets = 0` whose buffer
holds the 2 bytes `1, 2` returns, and the unread contents of the ring are
still empty, not the previous contents followed by `1, 2`. -/
theorem zero_packet_callback_drops_bytes :
    AudioInputCallback 2 (fresh_mic 8) 0 [1, 2]
      = some (outcome.returned { fresh_mic 8 with enqueued := 1 }) ∧
    fifo_contents ({ fresh_mic 8 with enqueued := 1 } : ca_mic_t).buffer = [] ∧
    fifo_contents (fresh_mic 8).buffer ++ [1, 2] = [1, 2] ∧
    [1, 2].length ≤ FIFO_WRITE_AVAIL (fresh_mic 8).buffer := by
  decide

/-- C8 (amended).  A hardware callback with `inNumPackets > 0` writes into the
ring only when the free space is at least the `N` bytes it delivers: whenever
it returns, the unread contents of the ring are the previous ones followed by
exactly the `N` new bytes; with too little free space it does not return
(and a callback kept waiting for the region leaves the ring as it was); with
enough free space and the region free it returns.  A callback with
`inNumPackets = 0` returns without touching the ring. -/
theorem callback_no_overrun (fuel : Nat) (mic : ca_mic_t) (inNumPackets : Nat)
    (data : List Nat) (hwf : fifo_wf mic.buffer) :
    (0 < inNumPackets →
      (∀ mic2, AudioInputCallback fuel mic inNumPackets data = some (outcome.returned mic2) →
        (data ≠ [] → data.length ≤ FIFO_WRITE_AVAIL mic.buffer) ∧
        fifo_contents mic2.buffer = fifo_contents mic.buffer ++ data ∧
        fifo_wf mic2.buffer) ∧
      (FIFO_WRITE_AVAIL mic.buffer < data.length →
        ∀ mic2, AudioInputCallback fuel mic inNumPackets data ≠ some (outcome.returned mic2)) ∧
      (∀ mic2, AudioInputCallback fuel mic inNumPackets data = some (outcome.blocked mic2) →
        mic2.buffer = mic.buffer) ∧
      (data.length ≤ FIFO_WRITE_AVAIL mic.buffer → 2 ≤ fuel → mic.lock.held = false →
        ∃ mic2, AudioInputCallback fuel mic inNumPackets data = some (outcome.returned mic2))) ∧
    (inNumPackets = 0 →
      AudioInputCallback fuel mic inNumPackets data
        = some (outcome.returned { mic with enqueued := mic.enqueued + 1 })) := by
  refine ⟨fun hp => ⟨fun mic2 h => ?_, fun hsmall mic2 h => ?_,
    fun mic2 h => callback_blocked_ring fuel mic inNumPackets data mic2 h,
    fun hfit hfuel hfree => callback_returns fuel mic inNumPackets data hfit hfuel hfree⟩,
    fun h0 => ?_⟩
  · obtain ⟨c1, -, c3, c4, -, -⟩ := callback_ring fuel mic inNumPackets data hwf hp mic2 h
    exact ⟨c1, c3, c4⟩
  · obtain ⟨c1, -, -, -, -, -⟩ := callback_ring fuel mic inNumPackets data hwf hp mic2 h
    have hne : data ≠ [] := by
      intro he; rw [he] at hsmall; simp at hsmall
    have := c1 hne
    omega
  · subst h0
    exact callback_zero_packets fuel mic data

/-- Witness of `callback_no_overrun`: two packets, four bytes, delivered to a
fresh ring of capacity 8. -/
theorem callback_no_overrun_witness :
    (0 < 2 →
      (∀ mic2, AudioInputCallback 2 (fresh_mic 8) 2 [1, 2, 3, 4] = some (outcome.returned mic2) →
        ([1, 2, 3, 4] ≠ [] → [1, 2, 3, 4].length ≤ FIFO_WRITE_AVAIL (fresh_mic 8).buffer) ∧
        fifo_contents mic2.buffer = fifo_contents (fresh_mic 8).buffer ++ [1, 2, 3, 4] ∧
        fifo_wf mic2.buffer) ∧
      (FIFO_WRITE_AVAIL (fresh_mic 8).buffer < [1, 2, 3, 4].length →
        ∀ mic2, AudioInputCallback 2 (fresh_mic 8) 2 [1, 2, 3, 4]
          ≠ some (outcome.returned mic2)) ∧
      (∀ mic2, AudioInputCallback 2 (fresh_mic 8) 2 [1, 2, 3, 4] = some (outcome.blocked mic2) →
        mic2.buffer = (fresh_mic 8).buffer) ∧
      ([1, 2, 3, 4].length ≤ FIFO_WRITE_AVAIL (fresh_mic 8).buffer → 2 ≤ 2 →
        (fresh_mic 8).lock.held = false →
        ∃ mic2, AudioInputCallback 2 (fresh_mic 8) 2 [1, 2, 3, 4]
          = some (outcome.returned mic2))) ∧
    (2 = 0 →
      AudioInputCallback 2 (fresh_mic 8) 2 [1, 2, 3, 4]
        = some (outcome.returned { fresh_mic 8 with enqueued := (fresh_mic 8).enqueued + 1 })) :=
  callback_no_overrun 2 (fresh_mic 8) 2 [1, 2, 3, 4] (fifo_new_wf 8)

/-- C9 (the code breaks it).  The claim: a call of
`coreaudio_microphone_read` never acquires the region while holding it and
returns with the region released.  Every nonblocking call that starts with
the region free acquires it, then asks for it again while holding it, never
releases it, and does not return: two acquisitions, no release, region
held. -/
theorem read_reacquires_and_keeps_region (mic : ca_mic_t) (sz : Nat) :
    ∃ r, coreaudio_microphone_read 0 { nonblock := true } mic sz = some (outcome.blocked r) ∧
      r.mic.lock.held = true ∧ r.mic.lock.reacquired = true ∧
      (mic.lock.held = false → r.mic.lock.acquires = mic.lock.acquires + 2) ∧
      r.mic.lock.releases = mic.lock.releases := by
  obtain ⟨r, h1, h2, h3, h4, h5, -⟩ := nonblocking_read_blocked 0 mic sz
  exact ⟨r, h1, h2, h3, h5, h4⟩

/-- C10 (the code breaks it).  The claim: on a stopped stream a blocking read
of more bytes than the ring holds returns what it obtained.  The ring of the
stopped `demo_mic` holds 4 bytes; a blocking read of 5 bytes has not returned
after any number of iterations of its loop. -/
theorem blocking_read_on_stopped_stream_spins (fuel : Nat) :
    (coreaudio_microphone_stop_mic demo_mic).2.running = false ∧
    FIFO_READ_AVAIL (coreaudio_microphone_stop_mic demo_mic).2.buffer = 4 ∧
    coreaudio_microphone_read fuel { nonblock := false }
      (coreaudio_microphone_stop_mic demo_mic).2 5 = none := by
  refine ⟨rfl, by decide, ?_⟩
  simp only [coreaudio_microphone_read, coreaudio_microphone_stop_mic]
  rw [slock_lock_free _ rfl]
  simp only [Bool.false_eq_true, if_false]
  rw [read_loop_starved fuel demo_mic.buffer 0 5 [] demo_mic_wf (by decide)]

end CoreAudio
